import Mathlib

/-!
# Verification of the `automata` repository

Shallow embedding of the three engines of the repository — the CFG leftmost-derivation
search (`src/cfg.py`), the NPDA acceptance search (`src/npda.py`) and the deterministic
TM simulator (`src/tm.py`) — together with proofs of the specification claims.

Strings are embedded as `List Char`.  Python's unbounded recursion is embedded with an
explicit fuel parameter; running out of fuel yields the same value as a failed search
branch, and the claims about completeness are proved for any fuel at least as large as
an explicit sufficient bound.  A Python `assert` that can fire on the inputs a claim
ranges over is modelled by an `Option` result (`none` = `AssertionError`).
-/

namespace Automata

/-- A Python string, embedded as a list of characters. -/
abbrev Str := List Char

/-- `c` is a grammar variable, i.e. an uppercase English letter (`"A" <= s <= "Z"`). -/
def isVariableChar (c : Char) : Bool := 'A' ≤ c && c ≤ 'Z'

/-- `c` is counted by `CFG._count_terminals`: a digit, or a lowercase letter other
than the epsilon symbol `e` (`"0" <= s <= "9" or ("a" <= s <= "z" and s != "e")`). -/
def isTerminalChar (c : Char) : Bool :=
  ('0' ≤ c && c ≤ '9') || ('a' ≤ c && c ≤ 'z' && c != 'e')

/-- `c` is a lowercase English letter or a digit. -/
def isLowerOrDigit (c : Char) : Bool := ('a' ≤ c && c ≤ 'z') || ('0' ≤ c && c ≤ '9')

/-- Replace the first occurrence of the character `a` in a string by `rhs`.
This is `current_string.replace(lhs, rhs, 1)` in `CFG._apply_rule`
(the `lhs` of a grammar rule is a single character). -/
def replaceFirst : Str → Char → Str → Str
  | [], _, _ => []
  | c :: rest, a, rhs => if c = a then rhs ++ rest else c :: replaceFirst rest a rhs

/-- Index of the first occurrence of `s` in `p` (Python `list.index`);
returns `p.length` if `s` does not occur. -/
def firstIdxOf : List Str → Str → Nat
  | [], _ => 0
  | x :: xs, s => if x = s then 0 else firstIdxOf xs s + 1

/-- Index of the first occurrence of character `a` in `l` (Python `str.index`);
returns `l.length` if `a` does not occur. -/
def firstIdxCh : Str → Char → Nat
  | [], _ => 0
  | c :: cs, a => if c = a then 0 else firstIdxCh cs a + 1

/-- Index of the last occurrence of character `a` in `l` (Python `str.rindex`). -/
def lastIdxCh (l : Str) (a : Char) : Nat := l.length - 1 - firstIdxCh l.reverse a

/-- `s.split(sep)` for a single-character separator. -/
def splitOnChar (sep : Char) : Str → List Str
  | [] => [[]]
  | c :: rest =>
    match splitOnChar sep rest with
    | [] => [[]]
    | h :: t => if c = sep then [] :: h :: t else (c :: h) :: t

/-! ## The CFG data model (`src/cfg.py`) -/

/-- The grammar object built by `CFG.__init__`: sets are embedded as lists
(Python set iteration order is unspecified; the claims proved below do not
depend on the order chosen). -/
structure CFG where
  /-- The `variables` set of the Python object (`vars` here: `variables` is a
  reserved word in Lean). -/
  vars : List Char
  terminals : List Char
  rules : List (Char × Str)
  start_variable : Char
deriving DecidableEq

/-- `CFG._count_terminals`: the number of terminal occurrences in a string. -/
def count_terminals (s : Str) : Nat := s.countP fun c => isTerminalChar c

/-- `CFG._count_variables`: the number of variable occurrences in a string. -/
def count_variables (s : Str) : Nat := s.countP fun c => isVariableChar c

/-- `string.replace("e", "")`: remove every epsilon symbol. -/
def strip_epsilons (s : Str) : Str := s.filter fun c => c != 'e'

/-- `CFG._find_leftmost_variable`: the first uppercase letter of the string,
or `none` where the Python code hits `assert False`. -/
def find_leftmost_variable (s : Str) : Option Char := s.find? fun c => isVariableChar c

/-- `CFG._find_rules`: all rules whose left-hand side is `v`. -/
def find_rules (g : CFG) (v : Char) : List (Char × Str) := g.rules.filter fun r => r.1 = v

/-- The invariants asserted by `CFG.__init__`. -/
def CFG.Wf (g : CFG) : Prop :=
  g.start_variable ∈ g.vars ∧
  (∀ v ∈ g.vars, v ∉ g.terminals) ∧
  'e' ∉ g.terminals ∧
  (∀ v ∈ g.vars, isVariableChar v) ∧
  (∀ t ∈ g.terminals, isLowerOrDigit t) ∧
  (∀ r ∈ g.rules, r.1 ∈ g.vars ∧ ∀ c ∈ r.2, c = 'e' ∨ c ∈ g.vars ∨ c ∈ g.terminals) ∧
  (∀ v ∈ g.vars, ∃ r ∈ g.rules, r.1 = v)

instance (g : CFG) : Decidable g.Wf := by unfold CFG.Wf; infer_instance

/-- The `for appropriate_rule in appropriate_rules:` loop of `CFG.leftmost_derive`:
try each rule in turn on the (already epsilon-stripped) current string, threading the
shared visited pool from branch to branch, and return the first non-empty derivation.
`rec` is the recursive call to `leftmost_derive` (at one less fuel). -/
def try_rules (rec : Str → List Str → List Str → Option (List Str × List Str)) :
    List (Char × Str) → Str → List Str → List Str → Option (List Str × List Str)
  | [], _, pool, _ => some ([], pool)
  | r :: rs, cur, pool, deriv =>
    match rec (replaceFirst cur r.1 r.2) pool deriv with
    | none => none
    | some (d, pool1) =>
      if d = [] then try_rules rec rs cur pool1 deriv else some (d, pool1)

/-- `CFG.leftmost_derive`.  The mutable shared `pool` set is threaded through
explicitly and returned next to the derivation; `fuel` bounds the recursion depth
(running out of fuel gives the same result as a failed branch — the theorems below
show a concrete fuel after which this can no longer happen).  `none` models an
uncaught `AssertionError` (the `assert` on the target inside the function, the
`assert False` of `_find_leftmost_variable`, and the membership assert of
`_find_rules`). -/
def leftmost_derive (g : CFG) :
    Nat → Str → Str → Nat → List Str → List Str → Option (List Str × List Str)
  | 0, _, _, _, pool, _ => some ([], pool)
  | fuel + 1, current_string, string, maxVar, pool, current_derivation =>
    if current_string ∈ pool then some ([], pool)
    else
      -- pool.add(current_string)
      let pool1 := current_string :: pool
      if count_variables current_string > maxVar then some ([], pool1)
      else
        -- current_string = current_string.replace("e", ""); string = string.replace("e", "")
        let cur := strip_epsilons current_string
        let tgt := strip_epsilons string
        -- assert len(string) == self._count_terminals(string)
        if tgt.length = count_terminals tgt then
          let tc := count_terminals cur
          if tc > tgt.length then some ([], pool1)
          else if tc = cur.length then
            if cur = tgt then some (current_derivation ++ [cur], pool1)
            else some ([], pool1)
          else
            match find_leftmost_variable cur with
            | none => none
            | some v =>
              if v ∈ g.vars then
                try_rules (fun c p d => leftmost_derive g fuel c tgt maxVar p d)
                  (find_rules g v) cur pool1 (current_derivation ++ [cur])
              else none
        else none

/-- `CFG.derive`: the four query-time `assert`s followed by the leftmost-derivation
search (with a fresh empty pool); `none` models a raised `AssertionError`. -/
def derive (g : CFG) (fuel : Nat) (current_string string : Str) (maxVar : Nat) :
    Option (List Str) :=
  if ¬ (string.all fun c => isVariableChar c || isLowerOrDigit c) then none
  else if ¬ (current_string.all fun c => c != 'e') then none
  else if ¬ (string.all fun c => isLowerOrDigit c) then none
  else if ¬ (string.all fun c => c != 'e') then none
  else (leftmost_derive g fuel current_string string maxVar [] []).map Prod.fst

/-- `CFG.generate`: its own two `assert`s, then `derive` from the start variable. -/
def generate (g : CFG) (fuel : Nat) (string : Str) (maxVar : Nat) : Option (List Str) :=
  if ¬ (string.all fun c => isLowerOrDigit c) then none
  else if ¬ (string.all fun c => c != 'e') then none
  else derive g fuel [g.start_variable] string maxVar

/-- One iteration of the minimisation loop of `CFG.pretty_print_derivation`:
if `s` occurs more than once in `p`, drop everything from the first occurrence of `s`
up to (excluding) its last occurrence. -/
def collapse_repeats (p : List Str) (s : Str) : List Str :=
  if p.count s > 1 then p.take (firstIdxOf p s) ++ p.drop (p.length - 1 - firstIdxOf p.reverse s)
  else p

/-- The derivation-compression pass of `CFG.pretty_print_derivation` (`minimize=True`):
fold the collapse step over the strings of the original derivation, from the last
string to the first. -/
def minimize_derivation (derivation : List Str) : List Str :=
  derivation.reverse.foldl collapse_repeats derivation

/-! ## Specification-side notions for the CFG engine -/

/-- One leftmost derivation step: rewrite the single leftmost variable occurrence of
`u` by the right-hand side of a grammar rule for that variable (epsilon symbols of the
right-hand side denote nothing and disappear). -/
def LDStep (g : CFG) (u v : Str) : Prop :=
  ∃ r ∈ g.rules, find_leftmost_variable u = some r.1 ∧
    v = strip_epsilons (replaceFirst u r.1 r.2)

/-- Consecutive elements of the list are related by `LDStep`. -/
def IsLDChain (g : CFG) : List Str → Prop
  | [] => True
  | [_] => True
  | u :: v :: rest => LDStep g u v ∧ IsLDChain g (v :: rest)

/-- A leftmost derivation of `target` from `from_`, each of whose elements contains at
most `maxVar` variable occurrences. -/
def BoundedDerivation (g : CFG) (maxVar : Nat) (head target : Str) (ds : List Str) : Prop :=
  ds ≠ [] ∧ IsLDChain g ds ∧ ds.head? = some head ∧ ds.getLast? = some target ∧
    ∀ u ∈ ds, count_variables u ≤ maxVar

/-! ## Reading the description files (`read_grammar` / `read_automaton`)

Only the pure line-processing logic is embedded (the actual file I/O is the excluded
collaborator); a description file is a list of lines, each a `Str`. -/

/-- The line preprocessing shared by the readers: keep a line iff its first non-space
character exists and is not `#`, and remove every space character from kept lines. -/
def keptLines (lines : List Str) : List Str :=
  (lines.map fun l => l.filter fun c => c != ' ').filter fun l =>
    !l.isEmpty && l.head? != some '#'

/-- The per-line loop of `CFG.read_grammar`; `none` models an `AssertionError`.
The start variable is `none` until the first rule line sets it to its left-hand side. -/
def read_grammar_loop : List Str → Option Char → List (Char × Str) →
    Option (Option Char × List (Char × Str))
  | [], startVar, rules => some (startVar, rules)
  | l :: ls, startVar, rules =>
    if l.count '>' = 1 ∧ firstIdxCh l '>' = 1 then
      match l with
      | lhs :: _ :: rhs =>
        if isVariableChar lhs ∧ rhs.all (fun c =>
            c == '|' || isVariableChar c || ('a' ≤ c && c ≤ 'z') || ('0' ≤ c && c ≤ '9')) then
          read_grammar_loop ls (some (startVar.getD lhs))
            (rules ++ (splitOnChar '|' rhs).map fun alt => (lhs, alt))
        else none
      | _ => none
    else none

/-- `CFG.read_grammar` on the list of lines of the description file. -/
def read_grammar (lines : List Str) : Option (Option Char × List (Char × Str)) :=
  read_grammar_loop (keptLines lines) none []

/-! ## The NPDA data model (`src/npda.py`) -/

/-- An NPDA transition
`(source state, input symbol-or-e, pop-or-e, push-or-e, destination state)`. -/
structure NTrans where
  source : Str
  input_symbol : Char
  stack_pop : Char
  stack_push : Char
  destination : Str
deriving DecidableEq

/-- The automaton object built by `NPDA.__init__` (sets embedded as lists). -/
structure NPDA where
  states : List Str
  input_alphabet : List Char
  stack_alphabet : List Char
  transitions : List NTrans
  start_state : Str
  accept_states : List Str
deriving DecidableEq

/-- The invariants asserted by `NPDA.__init__`. -/
def NPDA.Wf (M : NPDA) : Prop :=
  M.start_state ∈ M.states ∧ ∀ q ∈ M.accept_states, q ∈ M.states

/-- The body of the `for transition in self.transitions:` loop of `NPDA._simulate`:
`none` when the transition is not applicable at `(state, remaining_input, stack)`
(one of the `continue`s fires), otherwise the successor configuration.  The stack
top is the last character (`stack[-1]`), a push appends (`new_stack += stack_push`). -/
def npda_step (t : NTrans) (state remaining_input stack : Str) : Option (Str × Str × Str) :=
  if t.source ≠ state then none
  else if t.input_symbol ≠ 'e' ∧ remaining_input.head? ≠ some t.input_symbol then none
  else if t.stack_pop ≠ 'e' ∧ stack.getLast? ≠ some t.stack_pop then none
  else
    let stack1 := if t.stack_pop ≠ 'e' then stack.dropLast else stack
    let stack2 := if t.stack_push ≠ 'e' then stack1 ++ [t.stack_push] else stack1
    let input1 := if t.input_symbol ≠ 'e' then remaining_input.tail else remaining_input
    some (t.destination, input1, stack2)

namespace NPDA

/-- The `for transition in self.transitions:` loop of `NPDA._simulate`: try the
transitions in turn; `rec` is the recursive call to `_simulate` at one less fuel. -/
def npda_try (rec : Str → Str → Str → Option Bool) :
    List NTrans → Str → Str → Str → Option Bool
  | [], _, _, _ => some false
  | t :: ts, state, input, stack =>
    match npda_step t state input stack with
    | none => npda_try rec ts state input stack
    | some (q, i, s) =>
      match rec q i s with
      | none => none
      | some true => some true
      | some false => npda_try rec ts state input stack

/-- `NPDA._simulate`, with fuel: `none` means the recursive search did not complete
within `fuel` nested calls (the Python function simply recurses unboundedly). -/
def simulate (M : NPDA) : Nat → Str → Str → Str → Option Bool
  | 0, _, _, _ => none
  | fuel + 1, state, remaining_input, stack =>
    if state ∈ M.accept_states ∧ remaining_input = [] then some true
    else npda_try (fun q i s => simulate M fuel q i s) M.transitions state remaining_input stack

/-- `NPDA.accepts`: simulate from the start state with full input and an empty stack. -/
def accepts (M : NPDA) (fuel : Nat) (string : Str) : Option Bool :=
  simulate M fuel M.start_state string []

end NPDA

/-- An instantaneous NPDA configuration `(state, remaining input, stack)`. -/
abbrev NConfig := Str × Str × Str

/-- Some transition of `M` is applicable at `c` and produces `c'`. -/
def NStep (M : NPDA) (c c' : NConfig) : Prop :=
  ∃ t ∈ M.transitions, npda_step t c.1 c.2.1 c.2.2 = some c'

/-- Some sequence of applicable transitions starting at `c` reaches a configuration
whose state is an accept state and whose remaining input is empty (the stack contents
at that point are arbitrary). -/
def AcceptingFrom (M : NPDA) (c : NConfig) : Prop :=
  ∃ c', Relation.ReflTransGen (NStep M) c c' ∧ c'.1 ∈ M.accept_states ∧ c'.2.1 = []

/-- One transition line of `NPDA.read_automaton`; `none` models an `AssertionError`. -/
def parse_npda_line (l : Str) : Option NTrans :=
  if l.count ':' = 2 ∧ l.count '>' = 1 ∧
      firstIdxCh l ':' < firstIdxCh l '>' ∧ firstIdxCh l '>' < lastIdxCh l ':' then
    match splitOnChar ':' l with
    | [src, label, dst] =>
      match label with
      | [i, c1, p, c2, q] => if c1 = ',' ∧ c2 = '>' then some ⟨src, i, p, q, dst⟩ else none
      | _ => none
    | _ => none
  else none

/-- The per-line loop of `NPDA.read_automaton` over the transition lines: the start
state is `none` until the first transition line sets it to its source state. -/
def read_automaton_loop : List Str → Option Str → List NTrans →
    Option (Option Str × List NTrans)
  | [], startState, ts => some (startState, ts)
  | l :: ls, startState, ts =>
    match parse_npda_line l with
    | none => none
    | some t => read_automaton_loop ls (some (startState.getD t.source)) (ts ++ [t])

/-- `NPDA.read_automaton` on the lines of the description file: every kept line but the
last is a transition line, the last kept line is the comma-separated accept states. -/
def read_automaton (lines : List Str) : Option (Option Str × List NTrans × List Str) :=
  match (keptLines lines).getLast? with
  | none => none
  | some last =>
    (read_automaton_loop (keptLines lines).dropLast none []).map fun p =>
      (p.1, p.2, splitOnChar ',' last)

/-! ## The TM data model (`src/tm.py`) -/

/-- A TM transition `(source state, symbol read, symbol written, direction, destination)`;
the direction is the character `l` or `r`. -/
structure TTrans where
  source : Str
  read : Char
  write : Char
  direction : Char
  destination : Str
deriving DecidableEq

/-- The machine object built by `TM.__init__` (sets embedded as lists). -/
structure TM where
  states_except_reject_state : List Str
  tape_alphabet : List Char
  transitions : List TTrans
  start_state : Str
deriving DecidableEq

/-- The distinguished accept state name. -/
def accept_state : Str := "accept".toList

/-- The `source_and_read_symbols` seen-set loop of `TM.__init__`: no transition may
repeat an already seen `(source state, read symbol)` pair. -/
def source_read_fresh : List TTrans → List (Str × Char) → Prop
  | [], _ => True
  | t :: ts, seen => (t.source, t.read) ∉ seen ∧ source_read_fresh ts ((t.source, t.read) :: seen)

/-- The invariants asserted by `TM.__init__`. -/
def TM.Wf (m : TM) : Prop :=
  '.' ∈ m.tape_alphabet ∧
  (∀ t ∈ m.transitions,
    t.source ∈ m.states_except_reject_state ∧
    t.destination ∈ m.states_except_reject_state ∧
    t.read ∈ m.tape_alphabet ∧ t.write ∈ m.tape_alphabet ∧
    (t.direction = 'l' ∨ t.direction = 'r')) ∧
  source_read_fresh m.transitions [] ∧
  m.start_state ∈ m.states_except_reject_state ∧
  accept_state ∈ m.states_except_reject_state

instance (l : List TTrans) (seen : List (Str × Char)) : Decidable (source_read_fresh l seen) := by
  induction l generalizing seen with
  | nil => exact .isTrue trivial
  | cons t ts ih => exact @instDecidableAnd _ _ _ (ih _)

instance (m : TM) : Decidable m.Wf := by unfold TM.Wf; infer_instance

/-- Outcome of a fuelled TM simulation: the machine reached `accept`, rejected
(no applicable transition), hit the `assert head >= 0` (`crashed`), or the fuel ran
out (the Python recursion would keep running). -/
inductive TMResult
  | accepted
  | rejected
  | crashed
  | fuelOut
deriving DecidableEq

namespace TM

/-- `TM._read_tape`: `none` models a failure of `assert head >= 0`; a head at or
beyond the populated extent reads the blank symbol `.`. -/
def read_tape (tape : List Char) (head : Int) : Option Char :=
  if head < 0 then none
  else if (tape.length : Int) ≤ head then some '.'
  else some (tape.getD head.toNat '.')

/-- `TM._write_tape`: if the head is at or beyond the populated extent, first extend
the tape with blanks up to the head position, then write in place.  (In `_simulate`
this is only reached after `_read_tape` succeeded at the same head, so the head is
non-negative and is passed here as a `Nat`.) -/
def write_tape (tape : List Char) (head : Nat) (symbol : Char) : List Char :=
  let t := if tape.length ≤ head then tape ++ List.replicate (head - tape.length + 1) '.'
           else tape
  t.set head symbol

/-- The `for transition in self.transitions:` loop of `TM._simulate`: find the first
transition whose source is the current state and whose read symbol is the symbol under
the head; apply it (write, move with left moves clamped at 0, switch state) and
continue via `rec`; reject when no transition matches. -/
def tm_find (rec : List Char → Str → Int → TMResult) :
    List TTrans → List Char → Str → Int → TMResult
  | [], _, _, _ => .rejected
  | t :: ts, tape, state, head =>
    if t.source = state then
      match read_tape tape head with
      | none => .crashed
      | some c =>
        if c = t.read then
          rec (write_tape tape head.toNat t.write) t.destination
            (if t.direction = 'r' then head + 1 else max (head - 1) 0)
        else tm_find rec ts tape state head
    else tm_find rec ts tape state head

/-- `TM._simulate`, with fuel (the Python recursion has no step bound). -/
def simulate (m : TM) : Nat → List Char → Str → Int → TMResult
  | 0, _, _, _ => .fuelOut
  | fuel + 1, tape, state, head =>
    if state = accept_state then .accepted
    else tm_find (fun tp st hd => simulate m fuel tp st hd) m.transitions tape state head

/-- `TM.accepts`: simulate on the input as initial tape, from the start state with the
head at position 0. -/
def accepts (m : TM) (fuel : Nat) (string : Str) : TMResult :=
  simulate m fuel string m.start_state 0

end TM

/-! ## Basic facts about the character classes and list helpers -/

theorem isVariableChar_iff {c : Char} : isVariableChar c = true ↔ 'A' ≤ c ∧ c ≤ 'Z' := by
  simp [isVariableChar]

theorem isTerminalChar_iff {c : Char} :
    isTerminalChar c = true ↔ ('0' ≤ c ∧ c ≤ '9') ∨ ('a' ≤ c ∧ c ≤ 'z' ∧ c ≠ 'e') := by
  simp [isTerminalChar, and_assoc]

theorem isLowerOrDigit_iff {c : Char} :
    isLowerOrDigit c = true ↔ ('a' ≤ c ∧ c ≤ 'z') ∨ ('0' ≤ c ∧ c ≤ '9') := by
  simp [isLowerOrDigit]

theorem isVariableChar_ne_e {c : Char} (h : isVariableChar c) : c ≠ 'e' := by
  rintro rfl; simp [isVariableChar] at h

theorem not_isVariableChar_of_isTerminalChar {c : Char} (h : isTerminalChar c) :
    isVariableChar c = false := by
  rcases isTerminalChar_iff.mp h with ⟨h1, h2⟩ | ⟨h1, h2, _⟩
  · rcases Bool.eq_false_or_eq_true (isVariableChar c) with h' | h'
    · obtain ⟨hA, _⟩ := isVariableChar_iff.mp h'
      exact absurd (hA.trans h2) (by decide)
    · exact h'
  · rcases Bool.eq_false_or_eq_true (isVariableChar c) with h' | h'
    · obtain ⟨_, hZ⟩ := isVariableChar_iff.mp h'
      exact absurd (h1.trans hZ) (by decide)
    · exact h'

theorem not_isTerminalChar_of_isVariableChar {c : Char} (h : isVariableChar c) :
    isTerminalChar c = false := by
  rcases Bool.eq_false_or_eq_true (isTerminalChar c) with h' | h'
  · exact absurd h (by simp [not_isVariableChar_of_isTerminalChar h'])
  · exact h'

theorem isTerminalChar_ne_e {c : Char} (h : isTerminalChar c) : c ≠ 'e' := by
  rcases isTerminalChar_iff.mp h with ⟨h1, h2⟩ | ⟨_, _, h3⟩
  · rintro rfl; exact absurd h2 (by decide)
  · exact h3

theorem isTerminalChar_of_lower_digit {c : Char} (h1 : isLowerOrDigit c) (h2 : c ≠ 'e') :
    isTerminalChar c := by
  rcases isLowerOrDigit_iff.mp h1 with h | h
  · exact isTerminalChar_iff.mpr (Or.inr ⟨h.1, h.2, h2⟩)
  · exact isTerminalChar_iff.mpr (Or.inl h)

theorem not_isLowerOrDigit_of_isVariableChar {c : Char} (h : isVariableChar c) :
    isLowerOrDigit c = false := by
  obtain ⟨h1, h2⟩ := isVariableChar_iff.mp h
  rcases Bool.eq_false_or_eq_true (isLowerOrDigit c) with h' | h'
  · rcases isLowerOrDigit_iff.mp h' with ⟨ha, _⟩ | ⟨_, hb⟩
    · exact absurd (ha.trans h2) (by decide)
    · exact absurd (h1.trans hb) (by decide)
  · exact h'

/-- Every character is a variable or a terminal, never both; used to count lengths. -/
theorem countP_add_countP_of_disjoint {l : Str}
    (h : ∀ c ∈ l, isVariableChar c ∨ isTerminalChar c) :
    count_variables l + count_terminals l = l.length := by
  induction l with
  | nil => simp [count_variables, count_terminals]
  | cons c cs ih =>
    have hcs := ih fun x hx => h x (List.mem_cons_of_mem _ hx)
    unfold count_variables count_terminals at hcs ⊢
    rw [List.countP_cons, List.countP_cons, List.length_cons]
    rcases h c (List.mem_cons_self _ _) with hv | ht
    · simp only [hv, not_isTerminalChar_of_isVariableChar hv, if_true]
      simp only [show (false = true) = False by simp, if_false]
      omega
    · simp only [ht, not_isVariableChar_of_isTerminalChar ht, if_true]
      simp only [show (false = true) = False by simp, if_false]
      omega

theorem count_variables_strip (s : Str) :
    count_variables (strip_epsilons s) = count_variables s := by
  unfold count_variables strip_epsilons
  rw [List.countP_filter]
  apply List.countP_congr
  intro c _
  rcases Bool.eq_false_or_eq_true (isVariableChar c) with h | h
  · simp [h, bne_iff_ne, isVariableChar_ne_e h]
  · simp [h]

theorem count_terminals_strip (s : Str) :
    count_terminals (strip_epsilons s) = count_terminals s := by
  unfold count_terminals strip_epsilons
  rw [List.countP_filter]
  apply List.countP_congr
  intro c _
  rcases Bool.eq_false_or_eq_true (isTerminalChar c) with h | h
  · simp [h, bne_iff_ne, isTerminalChar_ne_e h]
  · simp [h]

theorem strip_epsilons_eq_self {s : Str} (h : ∀ c ∈ s, c ≠ 'e') : strip_epsilons s = s := by
  unfold strip_epsilons
  rw [List.filter_eq_self]
  intro a ha
  simp [bne_iff_ne, h a ha]

theorem strip_epsilons_idem (s : Str) : strip_epsilons (strip_epsilons s) = strip_epsilons s := by
  apply strip_epsilons_eq_self
  intro c hc
  have := List.of_mem_filter hc
  simpa [bne_iff_ne] using this

theorem mem_strip_epsilons {c : Char} {s : Str} (h : c ∈ strip_epsilons s) : c ∈ s :=
  List.mem_of_mem_filter h

theorem ne_e_of_mem_strip_epsilons {c : Char} {s : Str} (h : c ∈ strip_epsilons s) : c ≠ 'e' := by
  have := List.of_mem_filter h
  simpa [bne_iff_ne] using this

/-- Decomposition of `replaceFirst` at the first occurrence of `a`. -/
theorem replaceFirst_decomp {l : Str} {a : Char} (rhs : Str) (h : a ∈ l) :
    ∃ l₁ l₂, l = l₁ ++ a :: l₂ ∧ (∀ c ∈ l₁, c ≠ a) ∧
      replaceFirst l a rhs = l₁ ++ rhs ++ l₂ := by
  induction l with
  | nil => cases h
  | cons c cs ih =>
    by_cases hc : c = a
    · subst hc
      exact ⟨[], cs, rfl, by simp, by simp [replaceFirst]⟩
    · have hmem : a ∈ cs := by
        rcases List.mem_cons.mp h with h' | h'
        · exact absurd h'.symm hc
        · exact h'
      obtain ⟨l₁, l₂, hl, hne, hrep⟩ := ih hmem
      refine ⟨c :: l₁, l₂, by simp [hl], ?_, ?_⟩
      · intro x hx
        rcases List.mem_cons.mp hx with rfl | hx'
        · exact hc
        · exact hne x hx'
      · simp [replaceFirst, hc, hrep]

theorem mem_of_mem_replaceFirst {l : Str} {a c : Char} {rhs : Str}
    (h : c ∈ replaceFirst l a rhs) : c ∈ l ∨ c ∈ rhs := by
  induction l with
  | nil => simp [replaceFirst] at h
  | cons x xs ih =>
    simp only [replaceFirst] at h
    by_cases hx : x = a
    · rw [if_pos hx] at h
      rcases List.mem_append.mp h with h | h
      · exact Or.inr h
      · exact Or.inl (List.mem_cons_of_mem _ h)
    · rw [if_neg hx] at h
      rcases List.mem_cons.mp h with rfl | h
      · exact Or.inl (List.mem_cons_self _ _)
      · rcases ih h with h' | h'
        · exact Or.inl (List.mem_cons_of_mem _ h')
        · exact Or.inr h'

theorem length_replaceFirst {l : Str} {a : Char} (rhs : Str) (h : a ∈ l) :
    (replaceFirst l a rhs).length + 1 = l.length + rhs.length := by
  obtain ⟨l₁, l₂, hl, _, hrep⟩ := replaceFirst_decomp rhs h
  subst hl
  simp [hrep]
  omega

theorem countP_replaceFirst {l : Str} {a : Char} (rhs : Str) (p : Char → Bool) (h : a ∈ l) :
    (replaceFirst l a rhs).countP p + (if p a then 1 else 0) =
      l.countP p + rhs.countP p := by
  obtain ⟨l₁, l₂, hl, _, hrep⟩ := replaceFirst_decomp rhs h
  subst hl
  rw [hrep]
  simp [List.countP_append, List.countP_cons]
  by_cases hp : p a <;> simp [hp] <;> omega

theorem find_leftmost_variable_some {s : Str} {v : Char}
    (h : find_leftmost_variable s = some v) : v ∈ s ∧ isVariableChar v :=
  ⟨List.mem_of_find?_eq_some h, List.find?_some h⟩

/-- A string whose terminal count falls short of its length, all of whose characters are
variables or terminals, has a leftmost variable. -/
theorem find_leftmost_variable_isSome {s : Str}
    (hgood : ∀ c ∈ s, isVariableChar c ∨ isTerminalChar c)
    (h : count_terminals s ≠ s.length) : ∃ v, find_leftmost_variable s = some v := by
  have : ∃ c ∈ s, ¬ isTerminalChar c := by
    by_contra hall
    push_neg at hall
    exact h (List.countP_eq_length.mpr fun a ha => by simpa using hall a ha)
  obtain ⟨c, hc, hct⟩ := this
  have hcv : isVariableChar c := by
    rcases hgood c hc with h' | h'
    · exact h'
    · exact absurd h' hct
  rcases hfind : find_leftmost_variable s with _ | v
  · exact absurd hcv (by simpa using List.find?_eq_none.mp hfind c hc)
  · exact ⟨v, rfl⟩

/-- An all-terminal string has no leftmost variable. -/
theorem find_leftmost_variable_none {s : Str}
    (h : count_terminals s = s.length) : find_leftmost_variable s = none := by
  apply List.find?_eq_none.mpr
  intro c hc
  have hct : isTerminalChar c := by
    have := List.countP_eq_length.mp h c hc
    simpa using this
  simp [not_isVariableChar_of_isTerminalChar hct]

theorem mem_find_rules {g : CFG} {v : Char} {r : Char × Str} :
    r ∈ find_rules g v ↔ r ∈ g.rules ∧ r.1 = v := by
  simp [find_rules]

/-! ## The alphabet invariant of the derivation search -/

/-- Every character of `s` is the epsilon symbol, a variable, or a terminal of `g`:
the invariant that keeps the Python `assert`s inside the search from firing. -/
def GoodStr (g : CFG) (s : Str) : Prop := ∀ c ∈ s, c = 'e' ∨ c ∈ g.vars ∨ c ∈ g.terminals

instance (g : CFG) (s : Str) : Decidable (GoodStr g s) := by unfold GoodStr; infer_instance

theorem GoodStr.strip {g : CFG} {s : Str} (h : GoodStr g s) :
    GoodStr g (strip_epsilons s) := fun c hc => h c (mem_strip_epsilons hc)

theorem GoodStr.var_or_term {g : CFG} (hwf : g.Wf) {s : Str} (h : GoodStr g s) :
    ∀ c ∈ strip_epsilons s, isVariableChar c ∨ isTerminalChar c := by
  obtain ⟨-, -, he, hvars, hterms, -, -⟩ := hwf
  intro c hc
  rcases h c (mem_strip_epsilons hc) with rfl | hv | ht
  · exact absurd rfl (ne_e_of_mem_strip_epsilons hc)
  · exact Or.inl (hvars c hv)
  · refine Or.inr (isTerminalChar_of_lower_digit (hterms c ht) ?_)
    rintro rfl
    exact he ht

theorem GoodStr.replaceFirst {g : CFG} (hwf : g.Wf) {s : Str} (h : GoodStr g s)
    {r : Char × Str} (hr : r ∈ g.rules) : GoodStr g (Automata.replaceFirst s r.1 r.2) := by
  intro c hc
  rcases mem_of_mem_replaceFirst hc with hc' | hc'
  · exact h c hc'
  · obtain ⟨-, -, -, -, -, hrules, -⟩ := hwf
    exact (hrules r hr).2 c hc'

/-- For a string over the grammar's alphabet, the epsilon-stripped length is the
variable count plus the terminal count. -/
theorem length_strip_of_good {g : CFG} (hwf : g.Wf) {s : Str} (h : GoodStr g s) :
    (strip_epsilons s).length = count_variables s + count_terminals s := by
  rw [← count_variables_strip s, ← count_terminals_strip s]
  exact (countP_add_countP_of_disjoint (h.var_or_term hwf)).symm

/-- The leftmost variable of an alphabet-good string is a grammar variable. -/
theorem leftmost_mem_vars {g : CFG} (hwf : g.Wf) {s : Str} (h : GoodStr g (strip_epsilons s))
    {v : Char} (hv : find_leftmost_variable (strip_epsilons s) = some v) : v ∈ g.vars := by
  obtain ⟨hmem, hvar⟩ := find_leftmost_variable_some hv
  obtain ⟨-, -, -, -, hterms, -, -⟩ := hwf
  rcases h v hmem with rfl | h' | h'
  · exact absurd rfl (isVariableChar_ne_e hvar)
  · exact h'
  · have := not_isLowerOrDigit_of_isVariableChar hvar
    rw [hterms v h'] at this
    cases this

/-! ## Chains of leftmost derivation steps -/

theorem isLDChain_cons {g : CFG} {u v : Str} {l : List Str} (h1 : LDStep g u v)
    (h2 : IsLDChain g (v :: l)) : IsLDChain g (u :: v :: l) := ⟨h1, h2⟩

theorem isLDChain_single {g : CFG} (u : Str) : IsLDChain g [u] := trivial

/-- Soundness of the rule loop, for an arbitrary per-branch property `Q` of the
recursive calls. -/
theorem try_rules_sound {rec : Str → List Str → List Str → Option (List Str × List Str)}
    {Q : Str → List Str → Prop}
    (hrec : ∀ c pool dv d p', rec c pool dv = some (d, p') → d ≠ [] →
      ∃ t, d = dv ++ t ∧ Q c t) :
    ∀ rs cur pool deriv d p', try_rules rec rs cur pool deriv = some (d, p') → d ≠ [] →
      ∃ r ∈ rs, ∃ t, d = deriv ++ t ∧ Q (replaceFirst cur r.1 r.2) t := by
  intro rs
  induction rs with
  | nil =>
    intro cur pool deriv d p' h hne
    simp only [try_rules] at h
    obtain ⟨rfl, -⟩ := Prod.mk.injEq .. ▸ (Option.some.injEq .. ▸ h)
    exact absurd rfl hne
  | cons r rs ih =>
    intro cur pool deriv d p' h hne
    simp only [try_rules] at h
    rcases hc : rec (replaceFirst cur r.1 r.2) pool deriv with _ | ⟨dc, pc⟩
    · simp [hc] at h
    · simp only [hc] at h
      by_cases hd : dc = []
      · rw [if_pos hd] at h
        obtain ⟨r', hr', t, ht, hQ⟩ := ih cur pc deriv d p' h hne
        exact ⟨r', List.mem_cons_of_mem _ hr', t, ht, hQ⟩
      · rw [if_neg hd] at h
        obtain ⟨h1, h2⟩ := Prod.mk.injEq .. ▸ (Option.some.injEq .. ▸ h)
        subst h1
        obtain ⟨t, ht, hQ⟩ := hrec _ _ _ _ _ hc hne
        exact ⟨r, List.mem_cons_self _ _, t, ht, hQ⟩

/-- Soundness of `leftmost_derive`: a non-empty result extends the accumulated
derivation with a leftmost-derivation chain from the (epsilon-stripped) current
string to the (epsilon-stripped) target, all of whose elements respect the
variable-count bound. -/
theorem leftmost_derive_sound (g : CFG) :
    ∀ fuel cur target maxVar pool deriv d pool',
      leftmost_derive g fuel cur target maxVar pool deriv = some (d, pool') → d ≠ [] →
      ∃ t, d = deriv ++ t ∧ t ≠ [] ∧ IsLDChain g t ∧
        t.head? = some (strip_epsilons cur) ∧
        t.getLast? = some (strip_epsilons target) ∧
        ∀ u ∈ t, count_variables u ≤ maxVar := by
  intro fuel
  induction fuel with
  | zero =>
    intro cur target maxVar pool deriv d pool' h hne
    simp only [leftmost_derive] at h
    obtain ⟨rfl, -⟩ := Prod.mk.injEq .. ▸ (Option.some.injEq .. ▸ h)
    exact absurd rfl hne
  | succ f ih =>
    intro cur target maxVar pool deriv d pool' h hne
    simp only [leftmost_derive] at h
    by_cases hpool : cur ∈ pool
    · rw [if_pos hpool] at h
      obtain ⟨rfl, -⟩ := Prod.mk.injEq .. ▸ (Option.some.injEq .. ▸ h)
      exact absurd rfl hne
    rw [if_neg hpool] at h
    by_cases hbound : count_variables cur > maxVar
    · rw [if_pos hbound] at h
      obtain ⟨rfl, -⟩ := Prod.mk.injEq .. ▸ (Option.some.injEq .. ▸ h)
      exact absurd rfl hne
    rw [if_neg hbound] at h
    by_cases htgt : (strip_epsilons target).length = count_terminals (strip_epsilons target)
    swap
    · rw [if_neg htgt] at h; cases h
    rw [if_pos htgt] at h
    by_cases hterm : count_terminals (strip_epsilons cur) > (strip_epsilons target).length
    · rw [if_pos hterm] at h
      obtain ⟨rfl, -⟩ := Prod.mk.injEq .. ▸ (Option.some.injEq .. ▸ h)
      exact absurd rfl hne
    rw [if_neg hterm] at h
    by_cases hlen : count_terminals (strip_epsilons cur) = (strip_epsilons cur).length
    · rw [if_pos hlen] at h
      by_cases heq : strip_epsilons cur = strip_epsilons target
      · rw [if_pos heq] at h
        obtain ⟨h1, -⟩ := Prod.mk.injEq .. ▸ (Option.some.injEq .. ▸ h)
        refine ⟨[strip_epsilons cur], h1.symm, by simp, isLDChain_single _, by simp, ?_, ?_⟩
        · simp [heq]
        · intro u hu
          rw [List.mem_singleton.mp hu, count_variables_strip]
          omega
      · rw [if_neg heq] at h
        obtain ⟨rfl, -⟩ := Prod.mk.injEq .. ▸ (Option.some.injEq .. ▸ h)
        exact absurd rfl hne
    rw [if_neg hlen] at h
    rcases hfind : find_leftmost_variable (strip_epsilons cur) with _ | v
    · simp [hfind] at h
    simp only [hfind] at h
    by_cases hv : v ∈ g.vars
    swap
    · rw [if_neg hv] at h; cases h
    rw [if_pos hv] at h
    have hrec : ∀ c pool dv dd p', leftmost_derive g f c (strip_epsilons target) maxVar pool dv
        = some (dd, p') → dd ≠ [] →
        ∃ t, dd = dv ++ t ∧ (t ≠ [] ∧ IsLDChain g t ∧
          t.head? = some (strip_epsilons c) ∧
          t.getLast? = some (strip_epsilons target) ∧
          ∀ u ∈ t, count_variables u ≤ maxVar) := by
      intro c pool dv dd p' hc hcne
      obtain ⟨t, h1, h2, h3, h4, h5, h6⟩ := ih c (strip_epsilons target) maxVar pool dv dd p'
        hc hcne
      exact ⟨t, h1, h2, h3, h4, by rwa [strip_epsilons_idem] at h5, h6⟩
    obtain ⟨r, hr, t, hd, htne, hchain, hhead, hlast, hbounds⟩ :=
      try_rules_sound hrec (find_rules g v) (strip_epsilons cur) _ _ d pool' h hne
    obtain ⟨hrules, hlhs⟩ := mem_find_rules.mp hr
    rcases t with _ | ⟨w, rest⟩
    · exact absurd rfl htne
    refine ⟨strip_epsilons cur :: w :: rest, by simpa using hd, by simp, ?_, by simp, ?_, ?_⟩
    · refine isLDChain_cons ⟨r, hrules, by rw [hfind, hlhs], ?_⟩ hchain
      simp only [List.head?_cons] at hhead
      exact (Option.some.injEq .. ▸ hhead)
    · rw [List.getLast?_cons_cons]
      exact hlast
    · intro u hu
      rcases List.mem_cons.mp hu with rfl | hu'
      · rw [count_variables_strip]; omega
      · exact hbounds u hu'

theorem isLowerOrDigit_of_isTerminalChar {c : Char} (h : isTerminalChar c) :
    isLowerOrDigit c := by
  rcases isTerminalChar_iff.mp h with h' | h'
  · exact isLowerOrDigit_iff.mpr (Or.inr h')
  · exact isLowerOrDigit_iff.mpr (Or.inl ⟨h'.1, h'.2.1⟩)

/-- The rule loop returns a value as soon as every recursive call on the branch
strings does. -/
theorem try_rules_isSome {rec : Str → List Str → List Str → Option (List Str × List Str)}
    {P : Str → Prop} (hrec : ∀ c pool dv, P c → (rec c pool dv).isSome) :
    ∀ rs cur pool deriv, (∀ r ∈ rs, P (replaceFirst cur r.1 r.2)) →
      (try_rules rec rs cur pool deriv).isSome := by
  intro rs
  induction rs with
  | nil => intro cur pool deriv _; simp [try_rules]
  | cons r rs ih =>
    intro cur pool deriv hP
    simp only [try_rules]
    rcases hc : rec (replaceFirst cur r.1 r.2) pool deriv with _ | ⟨dc, pc⟩
    · have := hrec _ pool deriv (hP r (List.mem_cons_self _ _))
      rw [hc] at this
      cases this
    · by_cases hd : dc = []
      · simpa [hd] using ih cur pc deriv fun r' hr' => hP r' (List.mem_cons_of_mem _ hr')
      · simp [hd]

/-- With a well-formed grammar, an alphabet-good current string and an all-terminal
target, no internal `assert` of `leftmost_derive` can fire: at every fuel the search
returns a value (possibly the empty derivation) instead of raising. -/
theorem leftmost_derive_isSome (g : CFG) (hwf : g.Wf) :
    ∀ fuel target cur maxVar pool deriv, (∀ c ∈ target, isTerminalChar c) → GoodStr g cur →
      (leftmost_derive g fuel cur target maxVar pool deriv).isSome := by
  intro fuel
  induction fuel with
  | zero => intro target cur maxVar pool deriv _ _; simp [leftmost_derive]
  | succ f ih =>
    intro target cur maxVar pool deriv htgt hgood
    have hstrip : strip_epsilons target = target :=
      strip_epsilons_eq_self fun c hc => isTerminalChar_ne_e (htgt c hc)
    have hlen : (strip_epsilons target).length = count_terminals (strip_epsilons target) := by
      rw [hstrip]
      exact (List.countP_eq_length.mpr fun c hc => htgt c hc).symm
    simp only [leftmost_derive]
    by_cases hpool : cur ∈ pool
    · simp [hpool]
    rw [if_neg hpool]
    by_cases hbound : count_variables cur > maxVar
    · simp [hbound]
    rw [if_neg hbound, if_pos hlen]
    by_cases hterm : count_terminals (strip_epsilons cur) > (strip_epsilons target).length
    · simp [hterm]
    rw [if_neg hterm]
    by_cases hct : count_terminals (strip_epsilons cur) = (strip_epsilons cur).length
    · rw [if_pos hct]
      by_cases heq : strip_epsilons cur = strip_epsilons target <;> simp [heq]
    rw [if_neg hct]
    obtain ⟨v, hfind⟩ := find_leftmost_variable_isSome (hgood.var_or_term hwf) hct
    simp only [hfind]
    rw [if_pos (leftmost_mem_vars hwf hgood.strip hfind)]
    apply try_rules_isSome (P := GoodStr g)
    · intro c pool' dv hc
      have : ∀ c ∈ strip_epsilons target, isTerminalChar c := by
        rw [hstrip]; exact htgt
      exact ih (strip_epsilons target) c maxVar pool' dv this hc
    · intro r hr
      exact (hgood.strip).replaceFirst hwf (mem_find_rules.mp hr).1

/-- The rule loop only ever grows the shared pool. -/
theorem try_rules_pool_mono {rec : Str → List Str → List Str → Option (List Str × List Str)}
    (hrec : ∀ c pool dv d p', rec c pool dv = some (d, p') → pool ⊆ p') :
    ∀ rs cur pool deriv d p', try_rules rec rs cur pool deriv = some (d, p') → pool ⊆ p' := by
  intro rs
  induction rs with
  | nil =>
    intro cur pool deriv d p' h
    simp only [try_rules] at h
    obtain ⟨-, rfl⟩ := Prod.mk.injEq .. ▸ (Option.some.injEq .. ▸ h)
    exact fun a ha => ha
  | cons r rs ih =>
    intro cur pool deriv d p' h
    simp only [try_rules] at h
    rcases hc : rec (replaceFirst cur r.1 r.2) pool deriv with _ | ⟨dc, pc⟩
    · simp [hc] at h
    · simp only [hc] at h
      have h1 : pool ⊆ pc := hrec _ _ _ _ _ hc
      by_cases hd : dc = []
      · rw [if_pos hd] at h
        exact h1.trans (ih cur pc deriv d p' h)
      · rw [if_neg hd] at h
        obtain ⟨-, rfl⟩ := Prod.mk.injEq .. ▸ (Option.some.injEq .. ▸ h)
        exact h1

/-- The search only ever grows the shared pool, and (when it has fuel) records the
current string, epsilons and all, in the pool. -/
theorem leftmost_derive_pool_mono (g : CFG) :
    ∀ fuel cur target maxVar pool deriv d pool',
      leftmost_derive g fuel cur target maxVar pool deriv = some (d, pool') →
      pool ⊆ pool' ∧ (0 < fuel → cur ∉ pool → cur ∈ pool') := by
  intro fuel
  induction fuel with
  | zero =>
    intro cur target maxVar pool deriv d pool' h
    simp only [leftmost_derive] at h
    obtain ⟨-, rfl⟩ := Prod.mk.injEq .. ▸ (Option.some.injEq .. ▸ h)
    exact ⟨fun a ha => ha, fun h0 => absurd h0 (by omega)⟩
  | succ f ih =>
    intro cur target maxVar pool deriv d pool' h
    simp only [leftmost_derive] at h
    have hsub : cur :: pool ⊆ pool' → pool ⊆ pool' ∧ (0 < f + 1 → cur ∉ pool → cur ∈ pool') :=
      fun hs => ⟨fun a ha => hs (List.mem_cons_of_mem _ ha), fun _ _ =>
        hs (List.mem_cons_self _ _)⟩
    by_cases hpool : cur ∈ pool
    · rw [if_pos hpool] at h
      obtain ⟨-, rfl⟩ := Prod.mk.injEq .. ▸ (Option.some.injEq .. ▸ h)
      exact ⟨fun a ha => ha, fun _ h' => absurd hpool h'⟩
    rw [if_neg hpool] at h
    by_cases hbound : count_variables cur > maxVar
    · rw [if_pos hbound] at h
      obtain ⟨-, rfl⟩ := Prod.mk.injEq .. ▸ (Option.some.injEq .. ▸ h)
      exact hsub fun a ha => ha
    rw [if_neg hbound] at h
    by_cases htgt : (strip_epsilons target).length = count_terminals (strip_epsilons target)
    swap
    · rw [if_neg htgt] at h; cases h
    rw [if_pos htgt] at h
    by_cases hterm : count_terminals (strip_epsilons cur) > (strip_epsilons target).length
    · rw [if_pos hterm] at h
      obtain ⟨-, rfl⟩ := Prod.mk.injEq .. ▸ (Option.some.injEq .. ▸ h)
      exact hsub fun a ha => ha
    rw [if_neg hterm] at h
    by_cases hct : count_terminals (strip_epsilons cur) = (strip_epsilons cur).length
    · rw [if_pos hct] at h
      by_cases heq : strip_epsilons cur = strip_epsilons target
      · rw [if_pos heq] at h
        obtain ⟨-, rfl⟩ := Prod.mk.injEq .. ▸ (Option.some.injEq .. ▸ h)
        exact hsub fun a ha => ha
      · rw [if_neg heq] at h
        obtain ⟨-, rfl⟩ := Prod.mk.injEq .. ▸ (Option.some.injEq .. ▸ h)
        exact hsub fun a ha => ha
    rw [if_neg hct] at h
    rcases hfind : find_leftmost_variable (strip_epsilons cur) with _ | v
    · simp [hfind] at h
    simp only [hfind] at h
    by_cases hv : v ∈ g.vars
    swap
    · rw [if_neg hv] at h; cases h
    rw [if_pos hv] at h
    refine hsub (try_rules_pool_mono ?_ _ _ _ _ _ _ h)
    intro c poolx dv dd pp hcall
    exact (ih c (strip_epsilons target) maxVar poolx dv dd pp hcall).1
/-! ## A finite overapproximation of the search space -/

/-- All strings of length at most `n` over the alphabet `A`. -/
def stringsUpTo (A : Finset Char) : Nat → Finset Str
  | 0 => {[]}
  | n + 1 => {[]} ∪ A.biUnion fun c => (stringsUpTo A n).image fun l => c :: l

theorem mem_stringsUpTo {A : Finset Char} :
    ∀ {n : Nat} {l : Str}, l ∈ stringsUpTo A n ↔ l.length ≤ n ∧ ∀ c ∈ l, c ∈ A := by
  intro n
  induction n with
  | zero =>
    intro l
    simp only [stringsUpTo, Finset.mem_singleton]
    constructor
    · rintro rfl; simp
    · rintro ⟨h1, -⟩
      exact List.eq_nil_of_length_eq_zero (Nat.le_zero.mp h1)
  | succ n ih =>
    intro l
    simp only [stringsUpTo, Finset.mem_union, Finset.mem_singleton, Finset.mem_biUnion,
      Finset.mem_image]
    constructor
    · rintro (rfl | ⟨c, hc, l', hl', rfl⟩)
      · simp
      · obtain ⟨h1, h2⟩ := ih.mp hl'
        refine ⟨by simpa using h1, ?_⟩
        intro x hx
        rcases List.mem_cons.mp hx with rfl | hx'
        · exact hc
        · exact h2 x hx'
    · rintro ⟨h1, h2⟩
      rcases l with _ | ⟨c, l'⟩
      · exact Or.inl rfl
      · refine Or.inr ⟨c, h2 c (List.mem_cons_self _ _), l', ?_, rfl⟩
        refine ih.mpr ⟨by simpa using h1, fun x hx => h2 x (List.mem_cons_of_mem _ hx)⟩

/-- The characters appearing in the grammar (start variable, rule left-hand sides and
right-hand sides). -/
def symbols (g : CFG) : Finset Char :=
  insert g.start_variable
    (g.rules.foldr (fun r acc => insert r.1 (acc ∪ r.2.toFinset)) ∅)

theorem start_mem_symbols (g : CFG) : g.start_variable ∈ symbols g :=
  Finset.mem_insert_self _ _

theorem rule_chars_mem_symbols {g : CFG} {r : Char × Str} (hr : r ∈ g.rules) :
    ∀ c ∈ r.2, c ∈ symbols g := by
  intro c hc
  apply Finset.mem_insert_of_mem
  have : ∀ rs : List (Char × Str), r ∈ rs →
      c ∈ rs.foldr (fun r acc => insert r.1 (acc ∪ r.2.toFinset)) ∅ := by
    intro rs
    induction rs with
    | nil => intro h; cases h
    | cons x xs ih =>
      intro hmem
      simp only [List.foldr_cons]
      rcases List.mem_cons.mp hmem with rfl | hmem'
      · exact Finset.mem_insert_of_mem (Finset.mem_union_right _ (List.mem_toFinset.mpr hc))
      · exact Finset.mem_insert_of_mem (Finset.mem_union_left _ (ih hmem'))
  exact this g.rules hr

/-- The longest rule right-hand side. -/
def maxRhsLen (g : CFG) : Nat := g.rules.foldr (fun r m => max r.2.length m) 0

theorem rhs_len_le_maxRhsLen {g : CFG} {r : Char × Str} (hr : r ∈ g.rules) :
    r.2.length ≤ maxRhsLen g := by
  unfold maxRhsLen
  have : ∀ rs : List (Char × Str), r ∈ rs →
      r.2.length ≤ rs.foldr (fun r m => max r.2.length m) 0 := by
    intro rs
    induction rs with
    | nil => intro h; cases h
    | cons x xs ih =>
      intro hmem
      simp only [List.foldr_cons]
      rcases List.mem_cons.mp hmem with rfl | hmem'
      · exact Nat.le_max_left _ _
      · exact (ih hmem').trans (Nat.le_max_right _ _)
  exact this g.rules hr

/-- Every string passed to a recursive call of the search lies in this finite set. -/
def searchSpace (g : CFG) (target : Str) (maxVar : Nat) : Finset Str :=
  stringsUpTo (symbols g) (maxVar + target.length + maxRhsLen g + 1)

/-- Fuel that is guaranteed to be enough for `leftmost_derive` to explore the whole
bounded search space: the pool grows by one string of the finite `searchSpace` at
every level of nesting. -/
def sufficient_fuel (g : CFG) (target : Str) (maxVar : Nat) : Nat :=
  (searchSpace g target maxVar).card + 1

/-- After a failed search with final pool `P`, a visited string `u` is fully handled:
if it passes the variable-count and terminal-count prunes, then either it is an
all-terminal string different from the target, or every leftmost-rewrite successor of
it has been recorded in `P`. -/
def Handled (g : CFG) (target : Str) (maxVar : Nat) (P : List Str) (u : Str) : Prop :=
  count_variables u ≤ maxVar →
  count_terminals (strip_epsilons u) ≤ target.length →
  ((count_terminals (strip_epsilons u) = (strip_epsilons u).length →
      strip_epsilons u ≠ target) ∧
    ∀ v r, find_leftmost_variable (strip_epsilons u) = some v → r ∈ g.rules → r.1 = v →
      replaceFirst (strip_epsilons u) v r.2 ∈ P)

theorem Handled.mono {g : CFG} {target : Str} {maxVar : Nat} {P P' : List Str} {u : Str}
    (hPP : P ⊆ P') (h : Handled g target maxVar P u) : Handled g target maxVar P' u := by
  intro h1 h2
  obtain ⟨ha, hb⟩ := h h1 h2
  exact ⟨ha, fun v r hv hr hlhs => hPP (hb v r hv hr hlhs)⟩

/-- Growing the list pool shrinks the unexplored part of the search space. -/
theorem unexplored_mono {S : Finset Str} {pool pool' : List Str} (h : pool ⊆ pool') :
    (S \ pool'.toFinset).card ≤ (S \ pool.toFinset).card := by
  apply Finset.card_le_card
  apply Finset.sdiff_subset_sdiff (le_refl S)
  intro a ha
  exact List.mem_toFinset.mpr (h (List.mem_toFinset.mp ha))
/-- The central invariant of the completeness proof for `leftmost_derive`: with enough
fuel relative to the unexplored part of the finite search space, the search returns,
grows the pool inside the search space, records the current string, and — when it
fails — leaves every newly recorded string fully handled with respect to the final
pool.  This is the precise sense in which the shared visited-set prune loses nothing:
a failed search has explored every leftmost-rewrite successor of every recorded
string. -/
theorem leftmost_derive_complete_aux (g : CFG) (hwf : g.Wf) (target : Str)
    (htgt : ∀ c ∈ target, isTerminalChar c) (maxVar : Nat) :
    ∀ fuel cur pool deriv,
      GoodStr g cur →
      cur ∈ searchSpace g target maxVar →
      (∀ p ∈ pool, p ∈ searchSpace g target maxVar) →
      pool.Nodup →
      (searchSpace g target maxVar \ pool.toFinset).card + 1 ≤ fuel →
      ∃ d pool',
        leftmost_derive g fuel cur target maxVar pool deriv = some (d, pool') ∧
        pool ⊆ pool' ∧ pool'.Nodup ∧
        (∀ p ∈ pool', p ∈ searchSpace g target maxVar) ∧
        cur ∈ pool' ∧
        (d = [] → ∀ u ∈ pool', u ∉ pool → Handled g target maxVar pool' u) := by
  intro fuel
  induction fuel with
  | zero => intro cur pool deriv _ _ _ _ hfuel; omega
  | succ f ih =>
    intro cur pool deriv hgood hcurS hpoolS hnodup hfuel
    have hstrip : strip_epsilons target = target :=
      strip_epsilons_eq_self fun c hc => isTerminalChar_ne_e (htgt c hc)
    have htassert : target.length = count_terminals target :=
      (List.countP_eq_length.mpr fun c hc => htgt c hc).symm
    simp only [leftmost_derive]
    rw [hstrip]
    by_cases hpool : cur ∈ pool
    · rw [if_pos hpool]
      exact ⟨[], pool, rfl, fun a ha => ha, hnodup, hpoolS, hpool,
        fun _ u hu hnu => absurd hu hnu⟩
    rw [if_neg hpool]
    have hnodup1 : (cur :: pool).Nodup := List.nodup_cons.mpr ⟨hpool, hnodup⟩
    have hpoolS1 : ∀ p ∈ cur :: pool, p ∈ searchSpace g target maxVar := by
      intro p hp
      rcases List.mem_cons.mp hp with rfl | hp'
      · exact hcurS
      · exact hpoolS p hp'
    have hsub1 : pool ⊆ cur :: pool := fun a ha => List.mem_cons_of_mem _ ha
    have hcur1 : cur ∈ cur :: pool := List.mem_cons_self _ _
    by_cases hbound : count_variables cur > maxVar
    · rw [if_pos hbound]
      refine ⟨[], cur :: pool, rfl, hsub1, hnodup1, hpoolS1, hcur1, ?_⟩
      intro _ u hu hnu
      have hcu : u = cur := by
        rcases List.mem_cons.mp hu with rfl | h'
        · rfl
        · exact absurd h' hnu
      subst hcu
      intro h1 _
      exact absurd h1 (by omega)
    rw [if_neg hbound]
    rw [if_pos htassert]
    by_cases hterm : count_terminals (strip_epsilons cur) > target.length
    · rw [if_pos hterm]
      refine ⟨[], cur :: pool, rfl, hsub1, hnodup1, hpoolS1, hcur1, ?_⟩
      intro _ u hu hnu
      have hcu : u = cur := by
        rcases List.mem_cons.mp hu with rfl | h'
        · rfl
        · exact absurd h' hnu
      subst hcu
      intro _ h2
      exact absurd h2 (by omega)
    rw [if_neg hterm]
    by_cases hct : count_terminals (strip_epsilons cur) = (strip_epsilons cur).length
    · rw [if_pos hct]
      by_cases heq : strip_epsilons cur = target
      · rw [if_pos heq]
        exact ⟨deriv ++ [strip_epsilons cur], cur :: pool, rfl, hsub1, hnodup1, hpoolS1, hcur1,
          fun h => absurd h (by simp)⟩
      · rw [if_neg heq]
        refine ⟨[], cur :: pool, rfl, hsub1, hnodup1, hpoolS1, hcur1, ?_⟩
        intro _ u hu hnu
        have hcu : u = cur := by
          rcases List.mem_cons.mp hu with rfl | h'
          · rfl
          · exact absurd h' hnu
        subst hcu
        intro _ _
        refine ⟨fun _ => heq, ?_⟩
        intro v r hv hr hlhs
        rw [find_leftmost_variable_none hct] at hv
        cases hv
    rw [if_neg hct]
    obtain ⟨v, hfind⟩ := find_leftmost_variable_isSome (hgood.var_or_term hwf) hct
    simp only [hfind]
    rw [if_pos (leftmost_mem_vars hwf hgood.strip hfind)]
    have inner : ∀ rs : List (Char × Str), (∀ r ∈ rs, r ∈ g.rules ∧ r.1 = v) →
        ∀ poolX derivX, (∀ p ∈ poolX, p ∈ searchSpace g target maxVar) → poolX.Nodup →
          (searchSpace g target maxVar \ poolX.toFinset).card + 1 ≤ f →
          ∃ dd pout,
            try_rules (fun c p dv => leftmost_derive g f c target maxVar p dv) rs
              (strip_epsilons cur) poolX derivX = some (dd, pout) ∧
            poolX ⊆ pout ∧ pout.Nodup ∧
            (∀ p ∈ pout, p ∈ searchSpace g target maxVar) ∧
            (dd = [] →
              (∀ u ∈ pout, u ∉ poolX → Handled g target maxVar pout u) ∧
              ∀ r ∈ rs, replaceFirst (strip_epsilons cur) r.1 r.2 ∈ pout) := by
      intro rs
      induction rs with
      | nil =>
        intro _ poolX derivX hXS hXnd _
        exact ⟨[], poolX, rfl, fun a ha => ha, hXnd, hXS,
          fun _ => ⟨fun u hu hnu => absurd hu hnu, fun r hr => absurd hr (List.not_mem_nil r)⟩⟩
      | cons r rest ihr =>
        intro hrs poolX derivX hXS hXnd hXf
        obtain ⟨hrg, hrlhs⟩ := hrs r (List.mem_cons_self _ _)
        have hgoodc : GoodStr g (replaceFirst (strip_epsilons cur) r.1 r.2) :=
          (hgood.strip).replaceFirst hwf hrg
        have hvmem : r.1 ∈ strip_epsilons cur := by
          rw [hrlhs]
          exact (find_leftmost_variable_some hfind).1
        have hlenc : (replaceFirst (strip_epsilons cur) r.1 r.2).length + 1 =
            (strip_epsilons cur).length + r.2.length := length_replaceFirst r.2 hvmem
        have hcS : replaceFirst (strip_epsilons cur) r.1 r.2 ∈ searchSpace g target maxVar := by
          apply mem_stringsUpTo.mpr
          constructor
          · have h1 := length_strip_of_good hwf hgood
            have h2 := rhs_len_le_maxRhsLen hrg
            have h3 := count_terminals_strip cur
            omega
          · intro c hc
            rcases mem_of_mem_replaceFirst hc with hc' | hc'
            · exact (mem_stringsUpTo.mp hcurS).2 c (mem_strip_epsilons hc')
            · exact rule_chars_mem_symbols hrg c hc'
        obtain ⟨dc, pc, hcall, hsubc, hndc, hScS, hcinc, hclosec⟩ :=
          ih (replaceFirst (strip_epsilons cur) r.1 r.2) poolX derivX hgoodc hcS hXS hXnd hXf
        simp only [try_rules, hcall]
        by_cases hdc : dc = []
        · rw [if_pos hdc]
          have hXf' : (searchSpace g target maxVar \ pc.toFinset).card + 1 ≤ f := by
            have := unexplored_mono (S := searchSpace g target maxVar) hsubc
            omega
          obtain ⟨dr, pr, hcallr, hsubr, hndr, hSr, hcloser⟩ :=
            ihr (fun r' hr' => hrs r' (List.mem_cons_of_mem _ hr')) pc derivX hScS hndc hXf'
          refine ⟨dr, pr, hcallr, hsubc.trans hsubr, hndr, hSr, ?_⟩
          intro hdr
          obtain ⟨hclose1, hchild1⟩ := hcloser hdr
          constructor
          · intro u hu hnu
            by_cases hupc : u ∈ pc
            · exact (hclosec hdc u hupc hnu).mono hsubr
            · exact hclose1 u hu hupc
          · intro r' hr'
            rcases List.mem_cons.mp hr' with rfl | hr''
            · exact hsubr hcinc
            · exact hchild1 r' hr''
        · rw [if_neg hdc]
          exact ⟨dc, pc, rfl, hsubc, hndc, hScS, fun h => absurd h hdc⟩
    have hcardf : (searchSpace g target maxVar \ (cur :: pool).toFinset).card + 1 ≤ f := by
      rw [List.toFinset_cons, Finset.sdiff_insert]
      have hmem : cur ∈ searchSpace g target maxVar \ pool.toFinset :=
        Finset.mem_sdiff.mpr ⟨hcurS, fun hc => hpool (List.mem_toFinset.mp hc)⟩
      rw [Finset.card_erase_of_mem hmem]
      have hpos : 1 ≤ (searchSpace g target maxVar \ pool.toFinset).card :=
        Finset.card_pos.mpr ⟨cur, hmem⟩
      omega
    obtain ⟨dd, pout, hcall2, hsub2, hnd2, hS2, hclose2⟩ :=
      inner (find_rules g v) (fun r hr => mem_find_rules.mp hr) (cur :: pool)
        (deriv ++ [strip_epsilons cur]) hpoolS1 hnodup1 hcardf
    refine ⟨dd, pout, hcall2, hsub1.trans hsub2, hnd2, hS2, hsub2 hcur1, ?_⟩
    intro hdd u hu hnu
    obtain ⟨hclosen, hchildren⟩ := hclose2 hdd
    by_cases hu1 : u ∈ cur :: pool
    · have hcu : u = cur := by
        rcases List.mem_cons.mp hu1 with rfl | h'
        · rfl
        · exact absurd h' hnu
      subst hcu
      intro _ _
      refine ⟨fun hct' => absurd hct' hct, ?_⟩
      intro v' r hv' hr hlhs
      rw [hfind] at hv'
      have hvv : v = v' := Option.some.injEq .. ▸ hv'
      subst hvv
      have := hchildren r (mem_find_rules.mpr ⟨hr, hlhs⟩)
      rwa [hlhs] at this
    · exact hclosen u hu hu1
/-! ## Following a claimed derivation through a failed search -/

/-- A leftmost rewrite never decreases the number of terminal occurrences. -/
theorem ldstep_count_terminals_mono {g : CFG} {u v : Str} (h : LDStep g u v) :
    count_terminals u ≤ count_terminals v := by
  obtain ⟨r, hr, hfind, rfl⟩ := h
  rw [count_terminals_strip]
  obtain ⟨hm, hvar⟩ := find_leftmost_variable_some hfind
  have hc := countP_replaceFirst r.2 (fun c => isTerminalChar c) hm
  simp only [not_isTerminalChar_of_isVariableChar hvar, Bool.false_eq_true, if_false] at hc
  unfold count_terminals
  omega

/-- Along a leftmost derivation chain the terminal count is monotone, so it is
bounded by the terminal count of the final string. -/
theorem chain_count_terminals_le {g : CFG} :
    ∀ (l : List Str) (u target : Str), IsLDChain g (u :: l) →
      (u :: l).getLast? = some target → count_terminals u ≤ count_terminals target := by
  intro l
  induction l with
  | nil =>
    intro u target _ hlast
    have : u = target := by simpa using hlast
    rw [this]
  | cons w rest ih =>
    intro u target hchain hlast
    obtain ⟨hstep, hchain'⟩ := hchain
    rw [List.getLast?_cons_cons] at hlast
    exact (ldstep_count_terminals_mono hstep).trans (ih w target hchain' hlast)

theorem count_variables_eq_zero_of_terminal {s : Str} (h : ∀ c ∈ s, isTerminalChar c) :
    count_variables s = 0 :=
  List.countP_eq_zero.mpr fun c hc => by
    simp [not_isVariableChar_of_isTerminalChar (h c hc)]

/-- A fully handled pool (the final pool of a failed search started with an empty
pool) cannot contain a witness for the head of a bounded leftmost derivation chain
ending at the target: following the chain step by step through the handled pool
eventually contradicts the fact that the target itself was seen and rejected. -/
theorem no_chain_of_closed (g : CFG) (target : Str) (htgt : ∀ c ∈ target, isTerminalChar c)
    (maxVar : Nat) (P : List Str)
    (hclosed : ∀ u ∈ P, Handled g target maxVar P u) :
    ∀ (ds : List Str) (u : Str), IsLDChain g ds → ds.head? = some u →
      ds.getLast? = some target → (∀ w ∈ ds, count_variables w ≤ maxVar) →
      (∃ p ∈ P, strip_epsilons p = u) → False := by
  have htlen : count_terminals target = target.length :=
    List.countP_eq_length.mpr fun c hc => htgt c hc
  intro ds
  induction ds with
  | nil => intro u _ h; cases h
  | cons w rest ih =>
    intro u hchain hhead hlast hbound hp
    obtain ⟨p, hpP, hpstrip⟩ := hp
    rw [List.head?_cons] at hhead
    have hwu : u = w := (Option.some.injEq .. ▸ hhead).symm
    subst hwu
    have hH := hclosed p hpP
    have hb1 : count_variables p ≤ maxVar := by
      rw [← count_variables_strip p, hpstrip]
      exact hbound _ (List.mem_cons_self _ _)
    have hb2 : count_terminals (strip_epsilons p) ≤ target.length := by
      rw [count_terminals_strip, ← count_terminals_strip p, hpstrip, ← htlen]
      exact chain_count_terminals_le rest u target hchain hlast
    obtain ⟨hH1, hH2⟩ := hH hb1 hb2
    rcases rest with _ | ⟨w2, rest2⟩
    · have hut : u = target := by simpa using hlast
      subst hut
      have hguard : count_terminals (strip_epsilons p) = (strip_epsilons p).length := by
        rw [hpstrip, htlen]
      exact hH1 hguard hpstrip
    · obtain ⟨hstep, hchain2⟩ := hchain
      obtain ⟨r, hr, hfind, heq⟩ := hstep
      have hchild := hH2 r.1 r (by rw [hpstrip]; exact hfind) hr rfl
      apply ih w2 hchain2 (List.head?_cons) (by rw [List.getLast?_cons_cons] at hlast; exact hlast)
        (fun w' hw' => hbound w' (List.mem_cons_of_mem _ hw'))
      refine ⟨replaceFirst (strip_epsilons p) r.1 r.2, hchild, ?_⟩
      rw [hpstrip]
      exact heq.symm

/-! ## Unfolding `derive` and `generate` on well-formed queries -/

/-- On an epsilon-free current string and an all-terminal target, the four `assert`s
of `derive` pass and `derive` is the search itself. -/
theorem derive_eq (g : CFG) (fuel : Nat) {cur target : Str} (maxVar : Nat)
    (hcur : ∀ c ∈ cur, c ≠ 'e') (htgt : ∀ c ∈ target, isTerminalChar c) :
    derive g fuel cur target maxVar =
      (leftmost_derive g fuel cur target maxVar [] []).map Prod.fst := by
  unfold derive
  have h1 : target.all (fun c => isVariableChar c || isLowerOrDigit c) = true := by
    rw [List.all_eq_true]
    intro c hc
    simp [isLowerOrDigit_of_isTerminalChar (htgt c hc)]
  have h2 : cur.all (fun c => c != 'e') = true := by
    rw [List.all_eq_true]
    intro c hc
    simpa [bne_iff_ne] using hcur c hc
  have h3 : target.all (fun c => isLowerOrDigit c) = true := by
    rw [List.all_eq_true]
    intro c hc
    exact isLowerOrDigit_of_isTerminalChar (htgt c hc)
  have h4 : target.all (fun c => c != 'e') = true := by
    rw [List.all_eq_true]
    intro c hc
    simpa [bne_iff_ne] using isTerminalChar_ne_e (htgt c hc)
  simp [h1, h2, h3, h4]

/-- On an all-terminal target (and a well-formed start variable), `generate` is the
search from the start variable. -/
theorem generate_eq (g : CFG) (fuel : Nat) {target : Str} (maxVar : Nat)
    (htgt : ∀ c ∈ target, isTerminalChar c) (hstart : isVariableChar g.start_variable) :
    generate g fuel target maxVar =
      (leftmost_derive g fuel [g.start_variable] target maxVar [] []).map Prod.fst := by
  unfold generate
  have h3 : target.all (fun c => isLowerOrDigit c) = true := by
    rw [List.all_eq_true]
    intro c hc
    exact isLowerOrDigit_of_isTerminalChar (htgt c hc)
  have h4 : target.all (fun c => c != 'e') = true := by
    rw [List.all_eq_true]
    intro c hc
    simpa [bne_iff_ne] using isTerminalChar_ne_e (htgt c hc)
  rw [if_neg (by simp [h3]), if_neg (by simp [h4])]
  apply derive_eq
  · intro c hc
    rw [List.mem_singleton.mp hc]
    exact isVariableChar_ne_e hstart
  · exact htgt
/-! ## Claim C1 -/

/-- **C1.**  For every well-formed grammar and every target string over terminals,
`generate` (derivation from the start variable) returns a non-empty derivation if and
only if there is a leftmost derivation of the target from the start variable in which
every intermediate string contains at most `maxVar` (caller-supplied, default 64)
variable occurrences: within that bound the search is exact, and neither the shared
visited-set prune nor the terminal-count prune can lose a derivation.  Stated for any
fuel at least `sufficient_fuel` (the fuel parameter is an artifact of embedding the
unbounded Python recursion). -/
theorem C1_generate_nonempty_iff_bounded_leftmost_derivation (g : CFG) (hwf : g.Wf)
    (target : Str) (htgt : ∀ c ∈ target, isTerminalChar c) (maxVar fuel : Nat)
    (hfuel : sufficient_fuel g target maxVar ≤ fuel) :
    ∃ d, generate g fuel target maxVar = some d ∧
      (d ≠ [] ↔ ∃ ds, BoundedDerivation g maxVar [g.start_variable] target ds) := by
  have hstartvar : isVariableChar g.start_variable := by
    obtain ⟨h1, -, -, h4, -⟩ := hwf
    exact h4 _ h1
  have hgoodstart : GoodStr g [g.start_variable] := by
    intro c hc
    rw [List.mem_singleton.mp hc]
    exact Or.inr (Or.inl hwf.1)
  have hstartS : [g.start_variable] ∈ searchSpace g target maxVar := by
    apply mem_stringsUpTo.mpr
    constructor
    · rw [List.length_singleton]
      omega
    · intro c hc
      rw [List.mem_singleton.mp hc]
      exact start_mem_symbols g
  have hfuel2 : (searchSpace g target maxVar \ ([] : List Str).toFinset).card + 1 ≤ fuel := by
    unfold sufficient_fuel at hfuel
    simpa using hfuel
  obtain ⟨d, P, hrun, -, -, -, hstartP, hclose⟩ :=
    leftmost_derive_complete_aux g hwf target htgt maxVar fuel [g.start_variable] [] []
      hgoodstart hstartS (by simp) List.nodup_nil hfuel2
  have hstripstart : strip_epsilons [g.start_variable] = [g.start_variable] :=
    strip_epsilons_eq_self fun c hc => by
      rw [List.mem_singleton.mp hc]
      exact isVariableChar_ne_e hstartvar
  refine ⟨d, ?_, ?_, ?_⟩
  · rw [generate_eq g fuel maxVar htgt hstartvar, hrun]
    rfl
  · intro hne
    obtain ⟨t, hdt, htne, hchain, hhead, hlast, hbounds⟩ :=
      leftmost_derive_sound g fuel [g.start_variable] target maxVar [] [] d P hrun hne
    rw [hstripstart] at hhead
    rw [strip_epsilons_eq_self fun c hc => isTerminalChar_ne_e (htgt c hc)] at hlast
    have hdteq : d = t := by simpa using hdt
    subst hdteq
    exact ⟨d, htne, hchain, hhead, hlast, hbounds⟩
  · rintro ⟨ds, hdsne, hchain, hhead, hlast, hbounds⟩
    by_contra hd0
    have hclosed : ∀ u ∈ P, Handled g target maxVar P u :=
      fun u hu => hclose hd0 u hu (List.not_mem_nil u)
    exact no_chain_of_closed g target htgt maxVar P hclosed ds [g.start_variable]
      hchain hhead hlast hbounds ⟨[g.start_variable], hstartP, hstripstart⟩

/-- A concrete grammar for witnesses: `S -> 0S1S | e` (balanced `01` strings). -/
def gW : CFG := ⟨['S'], ['0', '1'], [('S', ['0', 'S', '1', 'S']), ('S', ['e'])], 'S'⟩

/-- Witness for C1: at the concrete grammar `gW`, target `01` and bound 2, with
exactly the sufficient fuel, the theorem applies and its hypotheses hold. -/
theorem C1_witness :
    ∃ d, generate gW (sufficient_fuel gW ['0', '1'] 2) ['0', '1'] 2 = some d ∧
      (d ≠ [] ↔ ∃ ds, BoundedDerivation gW 2 [gW.start_variable] ['0', '1'] ds) :=
  C1_generate_nonempty_iff_bounded_leftmost_derivation gW (by decide) ['0', '1']
    (by decide) 2 (sufficient_fuel gW ['0', '1'] 2) (le_refl _)
/-! ## Claims C3 and C9: the `derive` entry point -/

/-- Inversion of a successful `derive`: all four query-time `assert`s passed, the
current string is epsilon-free, the target is all-terminal, and the result is that of
the underlying search. -/
theorem derive_some_inv {g : CFG} {fuel : Nat} {cur target : Str} {maxVar : Nat}
    {d : List Str} (h : derive g fuel cur target maxVar = some d) :
    (∀ c ∈ cur, c ≠ 'e') ∧ (∀ c ∈ target, isTerminalChar c) ∧
      (leftmost_derive g fuel cur target maxVar [] []).map Prod.fst = some d := by
  unfold derive at h
  by_cases h1 : (target.all fun c => isVariableChar c || isLowerOrDigit c) = true
  swap
  · rw [if_pos h1] at h; cases h
  rw [if_neg (not_not_intro h1)] at h
  by_cases h2 : (cur.all fun c => c != 'e') = true
  swap
  · rw [if_pos h2] at h; cases h
  rw [if_neg (not_not_intro h2)] at h
  by_cases h3 : (target.all fun c => isLowerOrDigit c) = true
  swap
  · rw [if_pos h3] at h; cases h
  rw [if_neg (not_not_intro h3)] at h
  by_cases h4 : (target.all fun c => c != 'e') = true
  swap
  · rw [if_pos h4] at h; cases h
  rw [if_neg (not_not_intro h4)] at h
  refine ⟨?_, ?_, h⟩
  · intro c hc
    have := List.all_eq_true.mp h2 c hc
    simpa [bne_iff_ne] using this
  · intro c hc
    refine isTerminalChar_of_lower_digit (List.all_eq_true.mp h3 c hc) ?_
    have := List.all_eq_true.mp h4 c hc
    simpa [bne_iff_ne] using this

/-- A grammar whose start variable is `S` but which can also derive from `B`. -/
def gC3 : CFG := ⟨['S', 'B'], ['a', 'b'], [('S', ['a']), ('B', ['b'])], 'S'⟩

/-- **C3 counterexample.**  `derive` takes the string to derive *from* as an argument:
called on current string `B` (with start variable `S`), it returns a non-empty
sequence that begins at `B`, not at the start variable.  The claim as stated ("the
sequence begins at the start variable") is false for `derive` at this input. -/
theorem C3_counterexample :
    derive gC3 10 ['B'] ['b'] 64 = some [['B'], ['b']] ∧
    gC3.start_variable = 'S' ∧
    ([['B'], ['b']] : List Str).head? = some ['B'] ∧ (['B'] : Str) ≠ ['S'] := by
  refine ⟨by decide, rfl, rfl, by decide⟩

/-- **C3 (amended).**  If `derive` returns a non-empty sequence, the sequence begins
at the epsilon-stripped *current-string argument* — which is the start variable
exactly when `derive` is invoked through `generate` — ends at `s`, and each
consecutive pair of elements differs by exactly one leftmost-variable rule
application (`IsLDChain`). -/
theorem C3_amended_derive_result_is_leftmost_chain (g : CFG) (fuel : Nat)
    (cur target : Str) (maxVar : Nat) (d : List Str)
    (h : derive g fuel cur target maxVar = some d) (hne : d ≠ []) :
    IsLDChain g d ∧ d.head? = some cur ∧ d.getLast? = some target := by
  obtain ⟨hcur, htgt, hmap⟩ := derive_some_inv h
  obtain ⟨⟨d', P⟩, hrun, hfst⟩ := Option.map_eq_some'.mp hmap
  subst hfst
  obtain ⟨t, hdt, htne, hchain, hhead, hlast, -⟩ :=
    leftmost_derive_sound g fuel cur target maxVar [] [] _ _ hrun hne
  simp only [List.nil_append] at hdt
  subst hdt
  rw [strip_epsilons_eq_self hcur] at hhead
  rw [strip_epsilons_eq_self fun c hc => isTerminalChar_ne_e (htgt c hc)] at hlast
  exact ⟨hchain, hhead, hlast⟩

/-- Witness for the amended C3 at a concrete grammar and query. -/
theorem C3_amended_witness :
    IsLDChain gC3 [['B'], ['b']] ∧
      ([['B'], ['b']] : List Str).head? = some ['B'] ∧
      ([['B'], ['b']] : List Str).getLast? = some ['b'] :=
  C3_amended_derive_result_is_leftmost_chain gC3 10 ['B'] ['b'] 64 [['B'], ['b']]
    (by decide) (by decide)

/-- **C9.**  Query-time contract violations are fatal, search-time non-findings are
not: `derive` and `generate` raise (return `none`) whenever the target contains a
character that is not a lowercase letter or digit, or contains the epsilon character
`e`; whereas on a well-formed target (with a well-formed grammar and, for `derive`, a
well-formed current string) they always return an ordinary list — empty when no
derivation is found — so a caller can distinguish "not in language" from a contract
violation. -/
theorem C9_contract_violations_fatal_nonfindings_ordinary :
    (∀ (g : CFG) (fuel : Nat) (cur target : Str) (maxVar : Nat),
      (∃ c ∈ target, isLowerOrDigit c = false ∨ c = 'e') →
      derive g fuel cur target maxVar = none ∧ generate g fuel target maxVar = none) ∧
    (∀ (g : CFG) (fuel : Nat) (cur target : Str) (maxVar : Nat), g.Wf →
      (∀ c ∈ target, isTerminalChar c) → (∀ c ∈ cur, c ≠ 'e') → GoodStr g cur →
      (derive g fuel cur target maxVar).isSome) ∧
    (∀ (g : CFG) (fuel : Nat) (target : Str) (maxVar : Nat), g.Wf →
      (∀ c ∈ target, isTerminalChar c) →
      (generate g fuel target maxVar).isSome) := by
  refine ⟨?_, ?_, ?_⟩
  · rintro g fuel cur target maxVar ⟨c, hc, hbad⟩
    have hder : ∀ (cur' : Str), derive g fuel cur' target maxVar = none := by
      intro cur'
      unfold derive
      by_cases h1 : (target.all fun x => isVariableChar x || isLowerOrDigit x) = true
      swap
      · rw [if_pos h1]
      rw [if_neg (not_not_intro h1)]
      by_cases h2 : (cur'.all fun x => x != 'e') = true
      swap
      · rw [if_pos h2]
      rw [if_neg (not_not_intro h2)]
      by_cases h3 : (target.all fun x => isLowerOrDigit x) = true
      swap
      · rw [if_pos h3]
      rw [if_neg (not_not_intro h3)]
      by_cases h4 : (target.all fun x => x != 'e') = true
      swap
      · rw [if_pos h4]
      rw [if_neg (not_not_intro h4)]
      exfalso
      rcases hbad with hbad | hbad
      · rw [List.all_eq_true.mp h3 c hc] at hbad
        cases hbad
      · have := List.all_eq_true.mp h4 c hc
        rw [hbad] at this
        simp at this
    refine ⟨hder cur, ?_⟩
    unfold generate
    by_cases h3 : (target.all fun x => isLowerOrDigit x) = true
    swap
    · rw [if_pos h3]
    rw [if_neg (not_not_intro h3)]
    by_cases h4 : (target.all fun x => x != 'e') = true
    swap
    · rw [if_pos h4]
    rw [if_neg (not_not_intro h4)]
    exact hder [g.start_variable]
  · intro g fuel cur target maxVar hwf htgt hcur hgood
    rw [derive_eq g fuel maxVar hcur htgt]
    have := leftmost_derive_isSome g hwf fuel target cur maxVar [] [] htgt hgood
    rcases hrun : leftmost_derive g fuel cur target maxVar [] [] with _ | p
    · rw [hrun] at this; cases this
    · simp
  · intro g fuel target maxVar hwf htgt
    have hstart : isVariableChar g.start_variable := by
      obtain ⟨h1, -, -, h4, -⟩ := hwf
      exact h4 _ h1
    rw [generate_eq g fuel maxVar htgt hstart]
    have hgood : GoodStr g [g.start_variable] := by
      intro c hc
      rw [List.mem_singleton.mp hc]
      exact Or.inr (Or.inl hwf.1)
    have := leftmost_derive_isSome g hwf fuel target [g.start_variable] maxVar [] [] htgt hgood
    rcases hrun : leftmost_derive g fuel [g.start_variable] target maxVar [] [] with _ | p
    · rw [hrun] at this; cases this
    · simp

/-- A minimal grammar for the C9 witness. -/
def gC9 : CFG := ⟨['S'], ['a'], [('S', ['a'])], 'S'⟩

/-- Witness for C9 at a concrete grammar: an uppercase target raises, a well-formed
target gets an ordinary answer. -/
theorem C9_witness :
    (derive gC9 5 ['S'] ['A'] 64 = none ∧ generate gC9 5 ['A'] 64 = none) ∧
    (derive gC9 5 ['S'] ['a'] 64).isSome ∧ (generate gC9 5 ['a'] 64).isSome :=
  ⟨C9_contract_violations_fatal_nonfindings_ordinary.1 gC9 5 ['S'] ['A'] 64
      ⟨'A', by decide, Or.inl (by decide)⟩,
    C9_contract_violations_fatal_nonfindings_ordinary.2.1 gC9 5 ['S'] ['a'] 64
      (by decide) (by decide) (by decide) (by decide),
    C9_contract_violations_fatal_nonfindings_ordinary.2.2 gC9 5 ['a'] 64
      (by decide) (by decide)⟩
/-! ## Claim C6: what is stripped before what -/

/-- A grammar that puts an epsilon inside a right-hand side, so the search passes an
epsilon-carrying string to a recursive call. -/
def gC6 : CFG := ⟨['S', 'A'], ['a'], [('S', ['A', 'e']), ('A', ['a'])], 'S'⟩

/-- Modelled from the claim (C6), not from the code: the variant of `leftmost_derive`
in which epsilon symbols are stripped from the current string and the target before
*any* comparison or counting, so that the visited-set membership test, the pool
insertion and the variable count all see the epsilon-stripped current string.  Used
only to compare with the embedded `leftmost_derive`. -/
def leftmost_derive_specC6 (g : CFG) :
    Nat → Str → Str → Nat → List Str → List Str → Option (List Str × List Str)
  | 0, _, _, _, pool, _ => some ([], pool)
  | fuel + 1, current_string, string, maxVar, pool, current_derivation =>
    let cur := strip_epsilons current_string
    let tgt := strip_epsilons string
    if cur ∈ pool then some ([], pool)
    else
      let pool1 := cur :: pool
      if count_variables cur > maxVar then some ([], pool1)
      else
        if tgt.length = count_terminals tgt then
          let tc := count_terminals cur
          if tc > tgt.length then some ([], pool1)
          else if tc = cur.length then
            if cur = tgt then some (current_derivation ++ [cur], pool1)
            else some ([], pool1)
          else
            match find_leftmost_variable cur with
            | none => none
            | some v =>
              if v ∈ g.vars then
                try_rules (fun c p d => leftmost_derive_specC6 g fuel c tgt maxVar p d)
                  (find_rules g v) cur pool1 (current_derivation ++ [cur])
              else none
        else none

/-- **C6 counterexample.**  On the grammar `S -> Ae, A -> a` with target `a`, the
embedded code records the *unstripped* intermediate string `Ae` in the visited pool
(`Ae` is not epsilon-stripped), and its result differs from the claim's
strip-before-any-comparison variant, which records `A`.  So the visited-set
membership test does not operate on the epsilon-stripped current string. -/
theorem C6_counterexample :
    leftmost_derive gC6 10 ['S'] ['a'] 64 [] [] =
      some ([['S'], ['A'], ['a']], [['a'], ['A', 'e'], ['S']]) ∧
    leftmost_derive_specC6 gC6 10 ['S'] ['a'] 64 [] [] =
      some ([['S'], ['A'], ['a']], [['a'], ['A'], ['S']]) ∧
    leftmost_derive gC6 10 ['S'] ['a'] 64 [] [] ≠
      leftmost_derive_specC6 gC6 10 ['S'] ['a'] 64 [] [] ∧
    (['A', 'e'] : Str) ≠ strip_epsilons ['A', 'e'] :=
  ⟨by decide, by decide, by decide, by decide⟩

/-- **C6 (amended).**  Epsilon symbols are stripped from the current string and the
target before the terminal-count comparison, the final equality test and rule
application, but the visited-set membership test and the pool insertion happen
*before* stripping, on the unstripped current string — two current strings differing
only in epsilon symbols are distinct visited entries — and the variable-occurrence
count, also computed on the unstripped current string, is nevertheless unaffected,
because epsilon is not a variable. -/
theorem C6_amended_pool_operates_on_unstripped_strings :
    (∀ s : Str, count_variables (strip_epsilons s) = count_variables s) ∧
    (∀ (g : CFG) (fuel : Nat) (cur target : Str) (maxVar : Nat) (pool deriv : List Str),
      cur ∈ pool →
      leftmost_derive g (fuel + 1) cur target maxVar pool deriv = some ([], pool)) ∧
    (∀ (g : CFG) (fuel : Nat) (cur target : Str) (maxVar : Nat)
        (pool deriv d pool' : List Str),
      leftmost_derive g (fuel + 1) cur target maxVar pool deriv = some (d, pool') →
      cur ∉ pool → cur ∈ pool') := by
  refine ⟨count_variables_strip, ?_, ?_⟩
  · intro g fuel cur target maxVar pool deriv hmem
    simp [leftmost_derive, hmem]
  · intro g fuel cur target maxVar pool deriv d pool' h hnmem
    exact (leftmost_derive_pool_mono g (fuel + 1) cur target maxVar pool deriv d pool' h).2
      (by omega) hnmem

/-- Witness for the amended C6 on the concrete `gC6` run. -/
theorem C6_amended_witness :
    count_variables (strip_epsilons ['A', 'e']) = count_variables ['A', 'e'] ∧
    leftmost_derive gC6 1 ['S'] ['a'] 64 [['S']] [] = some ([], [['S']]) ∧
    (['S'] : Str) ∈ [['a'], ['A', 'e'], ['S']] :=
  ⟨C6_amended_pool_operates_on_unstripped_strings.1 ['A', 'e'],
    C6_amended_pool_operates_on_unstripped_strings.2.1 gC6 0 ['S'] ['a'] 64 [['S']] []
      (by decide),
    C6_amended_pool_operates_on_unstripped_strings.2.2 gC6 9 ['S'] ['a'] 64 [] []
      [['S'], ['A'], ['a']] [['a'], ['A', 'e'], ['S']] (by decide) (by decide)⟩

/-! ## Claim C8: the derivation-compression pass -/

theorem collapse_repeats_of_count_le_one {p : List Str} {s : Str} (h : p.count s ≤ 1) :
    collapse_repeats p s = p := by
  unfold collapse_repeats
  rw [if_neg (by omega)]

/-- Decomposition of a list at the first occurrence of an element. -/
theorem firstIdxOf_decomp {p : List Str} {s : Str} (h : s ∈ p) :
    ∃ l1 l2, p = l1 ++ s :: l2 ∧ s ∉ l1 ∧ firstIdxOf p s = l1.length := by
  induction p with
  | nil => cases h
  | cons x xs ih =>
    by_cases hx : x = s
    · subst hx
      exact ⟨[], xs, rfl, by simp, by simp [firstIdxOf]⟩
    · have hmem : s ∈ xs := by
        rcases List.mem_cons.mp h with h' | h'
        · exact absurd h'.symm hx
        · exact h'
      obtain ⟨l1, l2, hp, hnot, hidx⟩ := ih hmem
      refine ⟨x :: l1, l2, by rw [hp]; rfl, ?_, ?_⟩
      · intro hmem'
        rcases List.mem_cons.mp hmem' with h' | h'
        · exact hx h'.symm
        · exact hnot h'
      · simp [firstIdxOf, fun h' : x = s => hx h', hidx]

/-- **C8.**  The derivation-compression pass of `pretty_print_derivation` leaves any
derivation that contains no string more than once unchanged (idempotence on loop-free
input); and when a string `s` does recur, one collapse step keeps the part strictly
before the first occurrence of `s` together with the part from the last occurrence
on — so everything strictly between the two occurrences is dropped and exactly one
copy of `s` remains. -/
theorem C8_minimize_loop_free_identity_and_collapse :
    (∀ d : List Str, (∀ s, d.count s ≤ 1) → minimize_derivation d = d) ∧
    (∀ (p : List Str) (s : Str), p.count s > 1 →
      collapse_repeats p s =
        p.take (firstIdxOf p s) ++ p.drop (p.length - 1 - firstIdxOf p.reverse s) ∧
      (collapse_repeats p s).count s = 1) := by
  constructor
  · intro d hd
    unfold minimize_derivation
    have : ∀ l acc : List Str, (∀ s, acc.count s ≤ 1) → l.foldl collapse_repeats acc = acc := by
      intro l
      induction l with
      | nil => intro acc _; rfl
      | cons a l ihl =>
        intro acc hacc
        rw [List.foldl_cons, collapse_repeats_of_count_le_one (hacc a)]
        exact ihl acc hacc
    exact this d.reverse d hd
  · intro p s hcount
    have hpos : 0 < p.count s := by omega
    have hmem : s ∈ p := List.count_pos_iff.mp hpos
    have hmemr : s ∈ p.reverse := List.mem_reverse.mpr hmem
    obtain ⟨l1, l2, hp, hl1, hidx⟩ := firstIdxOf_decomp hmem
    obtain ⟨r1, r2, hpr, hr1, hidxr⟩ := firstIdxOf_decomp hmemr
    have hcollapse : collapse_repeats p s =
        p.take (firstIdxOf p s) ++ p.drop (p.length - 1 - firstIdxOf p.reverse s) := by
      unfold collapse_repeats
      rw [if_pos hcount]
    refine ⟨hcollapse, ?_⟩
    rw [hcollapse]
    -- the prefix before the first occurrence contains no s
    have htake : p.take (firstIdxOf p s) = l1 := by
      rw [hidx, hp, List.take_left]
    -- the suffix from the last occurrence starts with s and has no further s
    have hrev : p = r2.reverse ++ s :: r1.reverse := by
      have hrr := congrArg List.reverse hpr
      rw [List.reverse_reverse] at hrr
      rw [hrr]
      simp
    have hlenp : p.length = r2.length + r1.length + 1 := by
      rw [hrev]
      simp only [List.length_append, List.length_cons, List.length_reverse]
      omega
    have hlen : p.length - 1 - firstIdxOf p.reverse s = r2.reverse.length := by
      rw [hidxr, List.length_reverse]
      omega
    have hdrop : p.drop (p.length - 1 - firstIdxOf p.reverse s) = s :: r1.reverse := by
      rw [hlen]
      conv_lhs => rw [hrev]
      rw [List.drop_left]
    rw [htake, hdrop, List.count_append, List.count_eq_zero.mpr hl1, List.count_cons_self,
      List.count_reverse, List.count_eq_zero.mpr hr1]

/-- Witness for C8: a loop-free derivation is unchanged; a derivation with a repeat
collapses to one copy. -/
theorem C8_witness :
    minimize_derivation [['A'], ['B']] = [['A'], ['B']] ∧
    collapse_repeats [['x'], ['A'], ['x']] ['x'] =
      ([['x'], ['A'], ['x']] : List Str).take (firstIdxOf [['x'], ['A'], ['x']] ['x']) ++
        ([['x'], ['A'], ['x']] : List Str).drop
          (([['x'], ['A'], ['x']] : List Str).length - 1 -
            firstIdxOf ([['x'], ['A'], ['x']] : List Str).reverse ['x']) ∧
    (collapse_repeats [['x'], ['A'], ['x']] ['x']).count ['x'] = 1 :=
  ⟨C8_minimize_loop_free_identity_and_collapse.1 [['A'], ['B']]
      (fun s => by
        rcases eq_or_ne s ['A'] with rfl | hA
        · decide
        · rcases eq_or_ne s ['B'] with rfl | hB
          · decide
          · have h0 : List.count s [['A'], ['B']] = 0 :=
              List.count_eq_zero.mpr (by simp [hA, hB])
            omega),
    (C8_minimize_loop_free_identity_and_collapse.2 [['x'], ['A'], ['x']] ['x']
      (by decide)).1,
    (C8_minimize_loop_free_identity_and_collapse.2 [['x'], ['A'], ['x']] ['x']
      (by decide)).2⟩

/-! ## Claim C2: NPDA acceptance -/

/-- If the transition loop answers `some true`, some applicable transition leads to a
configuration whose recursive search answered `some true`. -/
theorem npda_try_true {rec : Str → Str → Str → Option Bool} :
    ∀ (ts : List NTrans) (state input stack : Str),
      NPDA.npda_try rec ts state input stack = some true →
      ∃ t ∈ ts, ∃ q i s, npda_step t state input stack = some (q, i, s) ∧
        rec q i s = some true := by
  intro ts
  induction ts with
  | nil => intro state input stack h; simp [NPDA.npda_try] at h
  | cons t ts ih =>
    intro state input stack h
    simp only [NPDA.npda_try] at h
    rcases hstep : npda_step t state input stack with _ | ⟨q, i, s⟩
    · simp only [hstep] at h
      obtain ⟨t', ht', w⟩ := ih state input stack h
      exact ⟨t', List.mem_cons_of_mem _ ht', w⟩
    · simp only [hstep] at h
      rcases hrec : rec q i s with _ | b
      · simp only [hrec] at h
        exact absurd h (by simp)
      · simp only [hrec] at h
        cases b
        · obtain ⟨t', ht', w⟩ := ih state input stack h
          exact ⟨t', List.mem_cons_of_mem _ ht', w⟩
        · exact ⟨t, List.mem_cons_self _ _, q, i, s, hstep, hrec⟩

/-- If the transition loop answers `some false`, every applicable transition's
recursive search answered `some false`. -/
theorem npda_try_false {rec : Str → Str → Str → Option Bool} :
    ∀ (ts : List NTrans) (state input stack : Str),
      NPDA.npda_try rec ts state input stack = some false →
      ∀ t ∈ ts, ∀ q i s, npda_step t state input stack = some (q, i, s) →
        rec q i s = some false := by
  intro ts
  induction ts with
  | nil => intro state input stack _ t ht; cases ht
  | cons t0 ts ih =>
    intro state input stack h t ht q i s hstep
    simp only [NPDA.npda_try] at h
    rcases hstep0 : npda_step t0 state input stack with _ | ⟨q0, i0, s0⟩
    · simp only [hstep0] at h
      rcases List.mem_cons.mp ht with rfl | ht'
      · rw [hstep0] at hstep; cases hstep
      · exact ih state input stack h t ht' q i s hstep
    · simp only [hstep0] at h
      rcases hrec : rec q0 i0 s0 with _ | b
      · simp only [hrec] at h
        exact absurd h (by simp)
      · simp only [hrec] at h
        cases b
        · rcases List.mem_cons.mp ht with rfl | ht'
          · have h0 := hstep0.symm.trans hstep
            simp only [Option.some.injEq, Prod.mk.injEq] at h0
            obtain ⟨hA, hB, hC⟩ := h0
            subst hA
            subst hB
            subst hC
            exact hrec
          · exact ih state input stack h t ht' q i s hstep
        · exact absurd h (by simp)

/-- A `some true` verdict of `_simulate` is sound: an accepting configuration is
reachable. -/
theorem simulate_true_accepting (M : NPDA) :
    ∀ fuel state input stack, NPDA.simulate M fuel state input stack = some true →
      AcceptingFrom M (state, input, stack) := by
  intro fuel
  induction fuel with
  | zero => intro state input stack h; cases h
  | succ f ih =>
    intro state input stack h
    simp only [NPDA.simulate] at h
    by_cases hacc : state ∈ M.accept_states ∧ input = []
    · exact ⟨(state, input, stack), Relation.ReflTransGen.refl, hacc.1, hacc.2⟩
    · rw [if_neg hacc] at h
      obtain ⟨t, ht, q, i, s, hstep, hrec⟩ := npda_try_true M.transitions state input stack h
      obtain ⟨c', hpath, h1, h2⟩ := ih q i s hrec
      exact ⟨c', Relation.ReflTransGen.head ⟨t, ht, hstep⟩ hpath, h1, h2⟩

/-- A `some false` verdict of `_simulate` is complete: the exhaustive search
terminated without finding an accepting configuration, so none is reachable. -/
theorem simulate_false_not_accepting (M : NPDA) :
    ∀ fuel state input stack, NPDA.simulate M fuel state input stack = some false →
      ¬ AcceptingFrom M (state, input, stack) := by
  intro fuel
  induction fuel with
  | zero => intro state input stack h; cases h
  | succ f ih =>
    intro state input stack h hacc
    simp only [NPDA.simulate] at h
    by_cases hbase : state ∈ M.accept_states ∧ input = []
    · rw [if_pos hbase] at h; cases h
    · rw [if_neg hbase] at h
      obtain ⟨c', hpath, h1, h2⟩ := hacc
      rcases (Relation.ReflTransGen.cases_head hpath) with rfl | ⟨c1, hstep1, hpath1⟩
      · exact hbase ⟨h1, h2⟩
      · obtain ⟨t, ht, hstept⟩ := hstep1
        obtain ⟨q, i, s⟩ := c1
        have hfalse := npda_try_false M.transitions state input stack h t ht q i s hstept
        exact ih q i s hfalse ⟨c', hpath1, h1, h2⟩

/-- **C2.**  Whenever the recursive search terminates on input `s` (it returns a
verdict within some fuel), `accepts s` answers `True` if and only if, from the start
state with empty stack and full input, some sequence of applicable transitions —
each popping at most one symbol then pushing at most one, consuming the input head
exactly when its input symbol is not epsilon — reaches a configuration whose state is
an accept state and whose remaining input is empty, whatever the stack holds there. -/
theorem C2_accepts_iff_accepting_configuration_reachable (M : NPDA) (fuel : Nat)
    (s : Str) (b : Bool) (h : NPDA.accepts M fuel s = some b) :
    b = true ↔ AcceptingFrom M (M.start_state, s, []) := by
  unfold NPDA.accepts at h
  constructor
  · rintro rfl
    exact simulate_true_accepting M fuel _ _ _ h
  · intro hacc
    by_contra hb
    have hbf : b = false := by
      cases b
      · rfl
      · exact absurd rfl hb
    subst hbf
    exact simulate_false_not_accepting M fuel _ _ _ h hacc

/-- A single-transition NPDA for the C2 witness: reads `0` in state `q`, accepts in
state `p`. -/
def nC2 : NPDA := ⟨[['q'], ['p']], ['0'], [], [⟨['q'], '0', 'e', 'e', ['p']⟩], ['q'], [['p']]⟩

/-- Witness for C2: on `nC2` and input `0` the search terminates with `True`, so an
accepting configuration is reachable. -/
theorem C2_witness : (true = true) ↔ AcceptingFrom nC2 (nC2.start_state, ['0'], []) :=
  C2_accepts_iff_accepting_configuration_reachable nC2 3 ['0'] true (by decide)

/-! ## Claim C7: per-transition size change -/

/-- The input-remaining length plus stack length of a configuration. -/
def configSize (c : NConfig) : Nat := c.2.1.length + c.2.2.length

/-- **C7 counterexample.**  A transition that consumes an input symbol and pops a
stack symbol without pushing shrinks input+stack by 2 net, refuting "changes by at
most 1 net per transition". -/
theorem C7_counterexample :
    npda_step ⟨['q'], '0', 'X', 'e', ['p']⟩ ['q'] ['0'] ['X'] = some (['p'], [], []) ∧
    configSize (['q'], ['0'], ['X']) = 2 ∧
    configSize (['p'], ([] : Str), ([] : Str)) = 0 ∧
    ¬(configSize (['q'], ['0'], ['X']) ≤ configSize (['p'], ([] : Str), ([] : Str)) + 1) :=
  ⟨by decide, rfl, rfl, by decide⟩

/-- **C7 (amended).**  Per applicable transition, at most one symbol is popped, at
most one is pushed, and at most one input symbol is consumed; hence the successor's
input+stack size is at most one larger and at most two smaller than the current
configuration's (net change in `[-2, +1]`, not `[-1, +1]`). -/
theorem C7_amended_step_changes_size_by_minus_two_to_plus_one (t : NTrans)
    (state input stack q i s : Str) (h : npda_step t state input stack = some (q, i, s)) :
    configSize (q, i, s) ≤ configSize (state, input, stack) + 1 ∧
    configSize (state, input, stack) ≤ configSize (q, i, s) + 2 ∧
    i.length ≤ input.length ∧ input.length ≤ i.length + 1 ∧
    s.length ≤ stack.length + 1 ∧ stack.length ≤ s.length + 1 := by
  simp only [npda_step] at h
  by_cases h1 : t.source ≠ state
  · rw [if_pos h1] at h; cases h
  rw [if_neg h1] at h
  by_cases h2 : t.input_symbol ≠ 'e' ∧ input.head? ≠ some t.input_symbol
  · rw [if_pos h2] at h; cases h
  rw [if_neg h2] at h
  by_cases h3 : t.stack_pop ≠ 'e' ∧ stack.getLast? ≠ some t.stack_pop
  · rw [if_pos h3] at h; cases h
  rw [if_neg h3] at h
  simp only [Option.some.injEq, Prod.mk.injEq] at h
  obtain ⟨-, hi, hs⟩ := h
  have hibound : i.length ≤ input.length ∧ input.length ≤ i.length + 1 := by
    rw [← hi]
    by_cases hinp : t.input_symbol = 'e'
    · rw [if_neg (not_not_intro hinp)]
      omega
    · rw [if_pos hinp]
      have htl := List.length_tail input
      omega
  have hsbound : s.length ≤ stack.length + 1 ∧ stack.length ≤ s.length + 1 := by
    rw [← hs]
    have hdl := List.length_dropLast stack
    by_cases hpop : t.stack_pop = 'e' <;> by_cases hpush : t.stack_push = 'e'
    · rw [if_neg (not_not_intro hpush), if_neg (not_not_intro hpop)]
      omega
    · rw [if_pos hpush, if_neg (not_not_intro hpop)]
      rw [List.length_append]
      simp only [List.length_singleton]
      omega
    · rw [if_neg (not_not_intro hpush), if_pos hpop]
      omega
    · rw [if_pos hpush, if_pos hpop]
      rw [List.length_append]
      simp only [List.length_singleton]
      omega
  simp only [configSize]
  omega

/-- Witness for the amended C7 on a concrete applicable transition. -/
theorem C7_amended_witness :
    configSize (['p'], ([] : Str), ([] : Str)) ≤ configSize (['q'], ['0'], ['X']) + 1 ∧
    configSize (['q'], ['0'], ['X']) ≤ configSize (['p'], ([] : Str), ([] : Str)) + 2 ∧
    ([] : Str).length ≤ (['0'] : Str).length ∧ (['0'] : Str).length ≤ ([] : Str).length + 1 ∧
    ([] : Str).length ≤ (['X'] : Str).length + 1 ∧
    (['X'] : Str).length ≤ ([] : Str).length + 1 :=
  C7_amended_step_changes_size_by_minus_two_to_plus_one ⟨['q'], '0', 'X', 'e', ['p']⟩
    ['q'] ['0'] ['X'] ['p'] [] [] (by decide)
/-! ## Claim C4: TM determinism at construction -/

/-- Under the seen-set check, no transition's (source, read) key is in `seen`. -/
theorem source_read_fresh_not_seen :
    ∀ (l : List TTrans) (seen : List (Str × Char)), source_read_fresh l seen →
      ∀ t ∈ l, (t.source, t.read) ∉ seen := by
  intro l
  induction l with
  | nil => intro seen _ t ht; cases ht
  | cons t0 l ih =>
    intro seen h t ht
    obtain ⟨h0, hrest⟩ := h
    rcases List.mem_cons.mp ht with rfl | ht'
    · exact h0
    · intro hmem
      exact (ih _ hrest t ht') (List.mem_cons_of_mem _ hmem)

/-- The seen-set check forbids two distinct transitions sharing (source, read). -/
theorem source_read_fresh_pairwise :
    ∀ (l : List TTrans) (seen : List (Str × Char)), source_read_fresh l seen →
      ∀ t1 ∈ l, ∀ t2 ∈ l, t1 ≠ t2 →
        (t1.source, t1.read) ≠ (t2.source, t2.read) := by
  intro l
  induction l with
  | nil => intro seen _ t1 ht1; cases ht1
  | cons t0 l ih =>
    intro seen h t1 ht1 t2 ht2 hne
    obtain ⟨h0, hrest⟩ := h
    rcases List.mem_cons.mp ht1 with rfl | ht1'
    · rcases List.mem_cons.mp ht2 with rfl | ht2'
      · exact absurd rfl hne
      · intro hk
        exact (source_read_fresh_not_seen l _ hrest t2 ht2')
          (by rw [← hk]; exact List.mem_cons_self _ _)
    · rcases List.mem_cons.mp ht2 with rfl | ht2'
      · intro hk
        exact (source_read_fresh_not_seen l _ hrest t1 ht1')
          (by rw [hk]; exact List.mem_cons_self _ _)
      · exact ih _ hrest t1 ht1' t2 ht2' hne

/-- **C4.**  The TM constructor fails whenever two distinct transitions share the same
(source state, read symbol) pair; consequently, on every successfully constructed
machine, for each (state, symbol-under-head) pair there is at most one applicable
transition at a simulation step. -/
theorem C4_tm_construction_rejects_duplicate_source_read :
    (∀ (m : TM) (t1 t2 : TTrans), t1 ∈ m.transitions → t2 ∈ m.transitions → t1 ≠ t2 →
      t1.source = t2.source → t1.read = t2.read → ¬ m.Wf) ∧
    (∀ (m : TM), m.Wf → ∀ (state : Str) (c : Char) (t1 t2 : TTrans),
      t1 ∈ m.transitions → t2 ∈ m.transitions →
      t1.source = state → t1.read = c → t2.source = state → t2.read = c → t1 = t2) := by
  constructor
  · intro m t1 t2 h1 h2 hne hsrc hread hwf
    obtain ⟨-, -, hfresh, -⟩ := hwf
    exact source_read_fresh_pairwise m.transitions [] hfresh t1 h1 t2 h2 hne
      (by rw [hsrc, hread])
  · intro m hwf state c t1 t2 h1 h2 hs1 hr1 hs2 hr2
    by_contra hne
    obtain ⟨-, -, hfresh, -⟩ := hwf
    exact source_read_fresh_pairwise m.transitions [] hfresh t1 h1 t2 h2 hne
      (by rw [hs1, hr1, hs2, hr2])

/-- A TM with two transitions sharing (source, read): must be rejected. -/
def tmBad : TM := ⟨[['q'], accept_state], ['a', 'b', '.'],
  [⟨['q'], 'a', 'a', 'r', ['q']⟩, ⟨['q'], 'a', 'b', 'r', ['q']⟩], ['q']⟩

/-- A deterministic TM accepted by the constructor. -/
def tmGood : TM := ⟨[['q'], accept_state], ['a', '.'],
  [⟨['q'], 'a', 'a', 'r', ['q']⟩, ⟨['q'], '.', '.', 'r', accept_state⟩], ['q']⟩

/-- Witness for C4: the duplicate-key machine is rejected; on the accepted machine
matching transitions for a fixed (state, symbol) coincide. -/
theorem C4_witness :
    ¬ tmBad.Wf ∧
    (⟨['q'], 'a', 'a', 'r', ['q']⟩ : TTrans) = ⟨['q'], 'a', 'a', 'r', ['q']⟩ :=
  ⟨C4_tm_construction_rejects_duplicate_source_read.1 tmBad
      ⟨['q'], 'a', 'a', 'r', ['q']⟩ ⟨['q'], 'a', 'b', 'r', ['q']⟩
      (by decide) (by decide) (by decide) rfl rfl,
    C4_tm_construction_rejects_duplicate_source_read.2 tmGood (by decide) ['q'] 'a'
      ⟨['q'], 'a', 'a', 'r', ['q']⟩ ⟨['q'], 'a', 'a', 'r', ['q']⟩
      (by decide) (by decide) rfl rfl rfl rfl⟩

/-! ## Claim C5: TM head and tape safety -/

/-- Reading at or beyond the populated tape extent yields the blank symbol. -/
theorem read_tape_blank (tape : List Char) (head : Int) (h0 : 0 ≤ head)
    (hlen : (tape.length : Int) ≤ head) : TM.read_tape tape head = some '.' := by
  unfold TM.read_tape
  rw [if_neg (by omega), if_pos hlen]

theorem set_append_replicate (tape : List Char) (k : Nat) (c : Char) :
    (tape ++ List.replicate (k + 1) '.').set (tape.length + k) c =
      tape ++ List.replicate k '.' ++ [c] := by
  induction tape with
  | nil =>
    simp only [List.nil_append, List.length_nil, Nat.zero_add]
    induction k with
    | zero => rfl
    | succ n ihn =>
      rw [List.replicate_succ '.' (n + 1), List.set_cons_succ, ihn, List.replicate_succ]
      rfl
  | cons x rest ih =>
    rw [List.cons_append, List.length_cons, Nat.add_right_comm rest.length 1 k,
      List.set_cons_succ, ih]
    rfl

/-- Writing at or beyond the populated tape extent first pads the tape with blanks up
to the head position, then writes the symbol there. -/
theorem write_tape_extends (tape : List Char) (head : Nat) (c : Char)
    (h : tape.length ≤ head) :
    TM.write_tape tape head c = tape ++ List.replicate (head - tape.length) '.' ++ [c] := by
  obtain ⟨k, rfl⟩ : ∃ k, head = tape.length + k := ⟨head - tape.length, by omega⟩
  unfold TM.write_tape
  rw [if_pos h]
  simp only [Nat.add_sub_cancel_left]
  exact set_append_replicate tape k c

/-- With a non-negative head, the transition loop of `_simulate` cannot crash: the
tape read succeeds, and the moved head stays non-negative (left moves are clamped). -/
theorem tm_find_no_crash (m : TM) (f : Nat)
    (hrec : ∀ tape state (head : Int), 0 ≤ head →
      TM.simulate m f tape state head ≠ TMResult.crashed) :
    ∀ (ts : List TTrans) tape state (head : Int), 0 ≤ head →
      TM.tm_find (fun tp st hd => TM.simulate m f tp st hd) ts tape state head ≠
        TMResult.crashed := by
  intro ts
  induction ts with
  | nil =>
    intro tape state head _
    simp [TM.tm_find]
  | cons t ts ih =>
    intro tape state head hh
    simp only [TM.tm_find]
    by_cases hsrc : t.source = state
    · rw [if_pos hsrc]
      rcases hrd : TM.read_tape tape head with _ | c
      · exfalso
        unfold TM.read_tape at hrd
        rw [if_neg (by omega : ¬ head < 0)] at hrd
        by_cases hlen : (tape.length : Int) ≤ head
        · rw [if_pos hlen] at hrd; cases hrd
        · rw [if_neg hlen] at hrd; cases hrd
      · simp only [hrd]
        by_cases hc : c = t.read
        · rw [if_pos hc]
          refine hrec _ _ _ ?_
          by_cases hdir : t.direction = 'r'
          · rw [if_pos hdir]; omega
          · rw [if_neg hdir]; exact le_max_right _ _
        · rw [if_neg hc]
          exact ih tape state head hh
    · rw [if_neg hsrc]
      exact ih tape state head hh

/-- Starting from a non-negative head, a TM simulation never crashes on the
`assert head >= 0` inside `_read_tape`. -/
theorem tm_simulate_no_crash (m : TM) :
    ∀ fuel tape state (head : Int), 0 ≤ head →
      TM.simulate m fuel tape state head ≠ TMResult.crashed := by
  intro fuel
  induction fuel with
  | zero =>
    intro tape state head _
    simp [TM.simulate]
  | succ f ih =>
    intro tape state head hh
    simp only [TM.simulate]
    by_cases hacc : state = accept_state
    · simp [hacc]
    · rw [if_neg hacc]
      exact tm_find_no_crash m f (fun tp st hd h0 => ih tp st hd h0)
        m.transitions tape state head hh

/-- **C5.**  Throughout every simulation started by `accepts` the head index stays at
least 0 (a left move from position 0 leaves the head at 0), so the `assert head >= 0`
inside the tape read can never fail; reading a cell at or beyond the populated tape
length returns the blank symbol `.`; and writing beyond the populated length first
extends the tape with blanks up to the head position. -/
theorem C5_tm_head_never_negative_blank_reads_extending_writes :
    (∀ (m : TM) (fuel : Nat) (s : Str), TM.accepts m fuel s ≠ TMResult.crashed) ∧
    (∀ (tape : List Char) (head : Int), 0 ≤ head → (tape.length : Int) ≤ head →
      TM.read_tape tape head = some '.') ∧
    (∀ (tape : List Char) (head : Nat) (c : Char), tape.length ≤ head →
      TM.write_tape tape head c = tape ++ List.replicate (head - tape.length) '.' ++ [c]) := by
  refine ⟨?_, read_tape_blank, write_tape_extends⟩
  intro m fuel s
  unfold TM.accepts
  exact tm_simulate_no_crash m fuel s m.start_state 0 (by omega)

/-- A small deterministic machine for the C5 witness. -/
def tmC5 : TM := ⟨[['q'], accept_state], ['a', '.'],
  [⟨['q'], 'a', 'a', 'r', ['q']⟩, ⟨['q'], '.', '.', 'l', accept_state⟩], ['q']⟩

/-- Witness for C5 at concrete inputs. -/
theorem C5_witness :
    TM.accepts tmC5 3 ['a'] ≠ TMResult.crashed ∧
    TM.read_tape [] 2 = some '.' ∧
    TM.write_tape ['a'] 3 'b' = ['a'] ++ List.replicate 2 '.' ++ ['b'] :=
  ⟨C5_tm_head_never_negative_blank_reads_extending_writes.1 tmC5 3 ['a'],
    C5_tm_head_never_negative_blank_reads_extending_writes.2.1 [] 2 (by decide) (by decide),
    C5_tm_head_never_negative_blank_reads_extending_writes.2.2 ['a'] 3 'b' (by decide)⟩

/-! ## Claim C10: where the start point comes from -/

/-- Once the start variable has been set by some earlier line, later lines of
`read_grammar` never change it. -/
theorem read_grammar_loop_start_some :
    ∀ (ls : List Str) (st : Char) (rules : List (Char × Str))
      (res : Option Char × List (Char × Str)),
      read_grammar_loop ls (some st) rules = some res → res.1 = some st := by
  intro ls
  induction ls with
  | nil =>
    intro st rules res h
    simp only [read_grammar_loop] at h
    obtain rfl := (Option.some.injEq .. ▸ h)
    rfl
  | cons l ls ih =>
    intro st rules res h
    simp only [read_grammar_loop] at h
    by_cases hc : l.count '>' = 1 ∧ firstIdxCh l '>' = 1
    swap
    · rw [if_neg hc] at h; cases h
    rw [if_pos hc] at h
    split at h
    · rename_i lhs x rhs
      split at h
      · simp only [Option.getD_some] at h
        exact ih st _ res h
      · cases h
    · cases h

/-- Once the start state has been set, later lines of `read_automaton` never change
it. -/
theorem read_automaton_loop_start_some :
    ∀ (ls : List Str) (st : Str) (ts : List NTrans) (res : Option Str × List NTrans),
      read_automaton_loop ls (some st) ts = some res → res.1 = some st := by
  intro ls
  induction ls with
  | nil =>
    intro st ts res h
    simp only [read_automaton_loop] at h
    obtain rfl := (Option.some.injEq .. ▸ h)
    rfl
  | cons l ls ih =>
    intro st ts res h
    simp only [read_automaton_loop] at h
    rcases hp : parse_npda_line l with _ | t
    · rw [hp] at h; cases h
    · simp only [hp] at h
      simp only [Option.getD_some] at h
      exact ih st _ res h

/-- The first component of `splitOnChar` is the longest separator-free prefix. -/
theorem splitOnChar_head (sep : Char) :
    ∀ l : Str, ∃ rest, splitOnChar sep l = (l.takeWhile fun c => c != sep) :: rest := by
  intro l
  induction l with
  | nil => exact ⟨[], rfl⟩
  | cons c cs ih =>
    obtain ⟨rest, hrest⟩ := ih
    by_cases hc : c = sep
    · refine ⟨(cs.takeWhile fun c => c != sep) :: rest, ?_⟩
      simp only [splitOnChar, hrest]
      rw [if_pos hc]
      subst hc
      simp [List.takeWhile_cons]
    · refine ⟨rest, ?_⟩
      simp only [splitOnChar, hrest]
      rw [if_neg hc]
      simp [List.takeWhile_cons, bne_iff_ne, hc]

/-- The source state recorded by a parsed NPDA transition line is the part of the
line before its first `:`. -/
theorem parse_npda_line_source {l : Str} {t : NTrans} (h : parse_npda_line l = some t) :
    t.source = l.takeWhile fun c => c != ':' := by
  unfold parse_npda_line at h
  by_cases hcond : l.count ':' = 2 ∧ l.count '>' = 1 ∧
      firstIdxCh l ':' < firstIdxCh l '>' ∧ firstIdxCh l '>' < lastIdxCh l ':'
  swap
  · rw [if_neg hcond] at h; cases h
  rw [if_pos hcond] at h
  split at h
  · rename_i src label dst hsp
    split at h
    · rename_i i c1 p c2 q
      split at h
      · obtain rfl := (Option.some.injEq .. ▸ h)
        obtain ⟨rest, hr⟩ := splitOnChar_head ':' l
        rw [hsp] at hr
        exact (List.cons.injEq .. ▸ hr).1
      · cases h
    · cases h
  · cases h

/-- **C10.**  The start point of a model built from a description file is silently
taken from the first kept (non-comment, non-blank) line: `read_grammar` uses the
left-hand-side variable of the first rule line as the grammar's start variable, and
`read_automaton` uses the source state (the part before the first `:`) of the first
transition line as the NPDA's start state; when there is no such line the start point
is `None` — no other line of the file format declares it. -/
theorem C10_start_point_comes_from_first_kept_line :
    (∀ (lines : List Str) (st : Option Char) (rules : List (Char × Str)),
      read_grammar lines = some (st, rules) →
      st = (keptLines lines).head?.bind fun l => l.head?) ∧
    (∀ (lines : List Str) (st : Option Str) (ts : List NTrans) (accepts : List Str),
      read_automaton lines = some (st, ts, accepts) →
      st = ((keptLines lines).dropLast.head?).map fun l =>
        l.takeWhile fun c => c != ':') := by
  constructor
  · intro lines st rules h
    unfold read_grammar at h
    rcases hk : keptLines lines with _ | ⟨l, ls⟩ <;> rw [hk] at h
    · simp only [read_grammar_loop] at h
      obtain ⟨h1, -⟩ := Prod.mk.injEq .. ▸ (Option.some.injEq .. ▸ h)
      rw [← h1]
      rfl
    · simp only [read_grammar_loop] at h
      by_cases hc : l.count '>' = 1 ∧ firstIdxCh l '>' = 1
      swap
      · rw [if_neg hc] at h; cases h
      rw [if_pos hc] at h
      split at h
      · rename_i lhs x rhs
        split at h
        · simp only [Option.getD_none] at h
          have hst := read_grammar_loop_start_some ls lhs _ (st, rules) h
          simpa using hst
        · cases h
      · cases h
  · intro lines st ts accepts h
    unfold read_automaton at h
    rcases hlast : (keptLines lines).getLast? with _ | last
    · rw [hlast] at h; cases h
    rw [hlast] at h
    obtain ⟨⟨st', ts'⟩, hloop, heq⟩ := Option.map_eq_some'.mp h
    obtain ⟨h1, -⟩ := Prod.mk.injEq .. ▸ heq
    rcases hk : (keptLines lines).dropLast with _ | ⟨l, ls⟩ <;> rw [hk] at hloop
    · simp only [read_automaton_loop] at hloop
      obtain ⟨h2, -⟩ := Prod.mk.injEq .. ▸ (Option.some.injEq .. ▸ hloop)
      rw [← h1, ← h2]
      rfl
    · simp only [read_automaton_loop] at hloop
      rcases hp : parse_npda_line l with _ | t
      · rw [hp] at hloop; cases hloop
      simp only [hp, Option.getD_none] at hloop
      have hst := read_automaton_loop_start_some ls t.source _ (st', ts') hloop
      rw [← h1, hst, List.head?_cons, Option.map_some']
      rw [parse_npda_line_source hp]

/-- Witness for C10 on two concrete description files. -/
theorem C10_witness :
    (some 'S' : Option Char) =
      (keptLines [['#', 'c'], ['S', '>', 'a']]).head?.bind (fun l => l.head?) ∧
    (some ['q'] : Option Str) =
      ((keptLines [['q', ':', '0', ',', 'e', '>', 'e', ':', 'p'], ['p']]).dropLast.head?).map
        (fun l => l.takeWhile fun c => c != ':') :=
  ⟨C10_start_point_comes_from_first_kept_line.1 [['#', 'c'], ['S', '>', 'a']]
      (some 'S') [('S', ['a'])] (by decide),
    C10_start_point_comes_from_first_kept_line.2
      [['q', ':', '0', ',', 'e', '>', 'e', ':', 'p'], ['p']]
      (some ['q']) [⟨['q'], '0', 'e', 'e', ['p']⟩] [['p']] (by decide)⟩

end Automata
